import Mathlib

/-!
# Cannoli Perl bridge (`lib/perl/perl_bridge.c`)

A shallow embedding of the header parser `parse_headers_to_hv`, of the
interpreter lifecycle (`perl_bridge_init`, `perl_bridge_shutdown`, the handler
registry) and of the dispatcher `perl_bridge_call_handler`, followed by the
properties established about them.

Conventions.
* A C string is the list of its bytes (`List Nat`); reading at or past the end
  of the list yields the terminating NUL, and a `0` inside the list is a NUL as
  well, so every list is a legal input.
* A pointer into the string being parsed is an offset from the cursor `p`,
  and the cursor itself is the suffix of the input that starts at `p`.
* A `NULL` pointer is `none`.
-/

namespace Cannoli

/-! ## Bytes and C library helpers -/

/-- Bytes of an ASCII string literal. -/
def str (s : String) : List Nat := s.toList.map Char.toNat

/-- The byte `p[i]`; the terminating NUL is read at the end of the list. -/
def byteAt (p : List Nat) (i : Nat) : Nat := p.getD i 0

/-- `strlen(p)`: number of bytes before the first NUL. -/
def strlen : List Nat → Nat
  | [] => 0
  | b :: bs => if b = 0 then 0 else strlen bs + 1

/-- `strchr(p, c)` as an offset from `p`; `none` is the `NULL` result. -/
def strchr : List Nat → Nat → Option Nat
  | [], c => if c = 0 then some 0 else none
  | b :: bs, c =>
    if b = c then some 0
    else if b = 0 then none
    else (strchr bs c).map (· + 1)

/-- Difference of two `size_t` quantities, wrapping below zero. -/
def size_sub (a b : Nat) : Nat := if b ≤ a then a - b else 2 ^ 64 - (b - a)

/-! ## The Perl hash that receives the headers -/

/-- A Perl hash with byte-string keys and values, in insertion order. -/
abbrev HV := List (List Nat × List Nat)

/-- `newHV()`. -/
def newHV : HV := []

/-- The store of a value under a key given by its bytes: the value of an
existing key is replaced, a new key is added. -/
def hv_insert : HV → List Nat → List Nat → HV
  | [], k, v => [(k, v)]
  | e :: rest, k, v => if e.1 = k then (k, v) :: rest else e :: hv_insert rest k v

/-- Conversion of a `size_t` to an `I32`, the type of the parameter `klen` of
`hv_store`: the low 32 bits, read as a two's complement number. -/
def to_I32 (n : Nat) : Int :=
  if n % 2 ^ 32 < 2 ^ 31 then ((n % 2 ^ 32 : Nat) : Int)
  else ((n % 2 ^ 32 : Nat) : Int) - 2 ^ 32

/-- `hv_store(hv, key, klen, val, 0)`: the key is made of the first `klen`
bytes of the buffer `key`; a negative `klen` stands for a key of `-klen` bytes
that the hash reads as UTF-8 (the model keeps those bytes as they are, which
is what the hash holds when they are ASCII). -/
def hv_store (hv : HV) (key : List Nat) (klen : Int) (val : List Nat) : HV :=
  hv_insert hv (key.take klen.natAbs) val

/-- `hv_fetch`: the value stored under a key. -/
def hv_fetch : HV → List Nat → Option (List Nat)
  | [], _ => none
  | e :: rest, k => if e.1 = k then some e.2 else hv_fetch rest k

/-! ## `parse_headers_to_hv` -/

/-- The fold of the name loop: `(c >= 'A' && c <= 'Z') ? c + 32 : c`. -/
def lower_byte (c : Nat) : Nat := if 65 ≤ c ∧ c ≤ 90 then c + 32 else c

/-- Number of `' '` bytes at the start of a string. -/
def count_spaces : List Nat → Nat
  | [] => 0
  | b :: bs => if b = 32 then count_spaces bs + 1 else 0

/-- The loop `while (*val_start == ' ') val_start++`, from offset `i`. -/
def skip_spaces (p : List Nat) (i : Nat) : Nat := i + count_spaces (p.drop i)

/-- The loop `while (val_len > 0 && (v[val_len-1] == '\r' || v[val_len-1] == '\n')) val_len--`
on the string `v` that starts at `val_start`. -/
def trim_crlf (v : List Nat) : Nat → Nat
  | 0 => 0
  | n + 1 => if byteAt v n = 13 ∨ byteAt v n = 10 then trim_crlf v n else n + 1

/-- What one iteration of the loop computes; positions are offsets from `p`. -/
structure Iter where
  /-- Position of the first `':'`. -/
  colon : Nat
  /-- Position of the end of the line. -/
  eol : Nat
  /-- Position of the value after the leading spaces. -/
  val_start : Nat
  /-- Length of the value before the trailing bytes are trimmed. -/
  val_len : Nat
  /-- The lowercased name. -/
  name : List Nat
  /-- The stored value. -/
  value : List Nat
  /-- Position of the cursor for the following iteration. -/
  next : Nat
  deriving DecidableEq, Repr

/-- The end of the line: `eol = strchr(colon, '\n'); if (!eol) eol = p + strlen(p);`. -/
def find_eol (p : List Nat) (colon : Nat) : Nat :=
  match strchr (p.drop colon) 10 with
  | some e => colon + e
  | none => strlen p

/-- The body of the loop once the `':'` is found at offset `colon`. -/
def parse_line (p : List Nat) (colon : Nat) : Iter :=
  let eol := find_eol p colon
  let name_len := colon
  let name := (p.take name_len).map lower_byte
  let val_start := skip_spaces p (colon + 1)
  let val_len := size_sub eol val_start
  let v := p.drop val_start
  let value := v.take (trim_crlf v val_len)
  let next := if byteAt p eol ≠ 0 then eol + 1 else eol
  ⟨colon, eol, val_start, val_len, name, value, next⟩

/-- The body of the `while (*p)` loop; `none` is the `break`. -/
def parse_iter (p : List Nat) : Option Iter :=
  match strchr p 58 with
  | none => none
  | some colon => some (parse_line p colon)

/-- The loop `while (*p) { ... }`, bounded by a number of iterations; `none`
means the bound was reached before the loop ended. The store is
`hv_store(hv, name, name_len, newSVpvn(val_start, val_len), 0)`, where the
`size_t` `name_len` (the offset `colon`) is converted to the `I32` `klen`. -/
def parse_loop : Nat → List Nat → HV → Option HV
  | 0, _, _ => none
  | fuel + 1, p, hv =>
    if byteAt p 0 = 0 then some hv
    else match parse_iter p with
      | none => some hv
      | some it =>
        parse_loop fuel (p.drop it.next) (hv_store hv it.name (to_I32 it.colon) it.value)

/-- `parse_headers_to_hv(headers_str)`. The bound of one iteration per byte
plus one is never reached. -/
def parse_headers_to_hv (headers_str : Option (List Nat)) : Option HV :=
  match headers_str with
  | none => some newHV
  | some s =>
    if byteAt s 0 = 0 then some newHV
    else parse_loop (s.length + 1) s newHV

/-- The value stored for a line whose text after the `':'` is `body`: the
leading spaces are skipped and the trailing `'\r'`/`'\n'` bytes are trimmed. -/
def header_value (body : List Nat) : List Nat :=
  let v := body.drop (count_spaces body)
  v.take (trim_crlf v v.length)

/-- A header block made of lines `name ":" body "\n"`. -/
def block_raw : List (List Nat × List Nat) → List Nat
  | [] => []
  | l :: ls => l.1 ++ 58 :: (l.2 ++ 10 :: block_raw ls)

/-- The entries stored for the lines of `block_raw`, in order, on top of `hv`. -/
def store_lines (hv : HV) (lines : List (List Nat × List Nat)) : HV :=
  lines.foldl (fun acc l =>
    hv_store acc (l.1.map lower_byte) (to_I32 l.1.length) (header_value l.2)) hv

/-- Every line of the block can be tokenized: no `':'` in a name, no `'\n'`
after the `':'`, no NUL anywhere. -/
def lines_ok (lines : List (List Nat × List Nat)) : Prop :=
  ∀ l ∈ lines, 58 ∉ l.1 ∧ 0 ∉ l.1 ∧ 10 ∉ l.2 ∧ 0 ∉ l.2

/-- C `isspace` in the "C" locale: space, `\t`, `\n`, `\v`, `\f`, `\r`. -/
def is_space (c : Nat) : Bool := c == 32 || (decide (9 ≤ c) && decide (c ≤ 13))

/-- A byte string with no leading and no trailing whitespace byte. -/
def is_trimmed (l : List Nat) : Bool :=
  !(l.head?.any is_space) && !(l.getLast?.any is_space)

/-- A header block made of lines `name ": " value nl`, where `nl` is the line
terminator. -/
def header_block (nl : List Nat) : List (List Nat × List Nat) → List Nat
  | [] => []
  | l :: ls => l.1 ++ 58 :: 32 :: (l.2 ++ (nl ++ header_block nl ls))

/-- A well-formed header line `(name, value)`: the name is non-empty and has
no `':'`, `'\n'` or NUL; the value has no `'\n'` or NUL, does not start with a
space and does not end with `'\r'`. -/
def well_formed_line (l : List Nat × List Nat) : Prop :=
  l.1 ≠ [] ∧ 58 ∉ l.1 ∧ 10 ∉ l.1 ∧ 0 ∉ l.1 ∧
    10 ∉ l.2 ∧ 0 ∉ l.2 ∧ l.2.head? ≠ some 32 ∧ l.2.getLast? ≠ some 13

/-- A well-formed header block: every line is well formed and the lowercased
names are pairwise distinct. -/
def well_formed (lines : List (List Nat × List Nat)) : Prop :=
  (∀ l ∈ lines, well_formed_line l) ∧ (lines.map (fun l => l.1.map lower_byte)).Nodup

/-- Every name of the block is shorter than 2^31 bytes, so that its length is
a non-negative `I32`. -/
def short_names (lines : List (List Nat × List Nat)) : Prop :=
  ∀ l ∈ lines, l.1.length < 2 ^ 31

/-- A header line `(name, value)` that can be tokenized: the name has no `':'`,
`'\n'` or NUL, the value has no `'\n'` or NUL. -/
def plain_line (l : List Nat × List Nat) : Prop :=
  58 ∉ l.1 ∧ 10 ∉ l.1 ∧ 0 ∉ l.1 ∧ 10 ∉ l.2 ∧ 0 ∉ l.2

/-- The iterations of the loop `while (*p) { ... }`, in order: the cursor at
which the body is entered and what the body computes there (`none` for the
iteration that ends in `break`). The bound and the result `none` are those of
`parse_loop`. -/
def parse_trace : Nat → List Nat → Option (List (List Nat × Option Iter))
  | 0, _ => none
  | fuel + 1, p =>
    if byteAt p 0 = 0 then some []
    else match parse_iter p with
      | none => some [(p, none)]
      | some it => (parse_trace fuel (p.drop it.next)).map (fun tr => (p, some it) :: tr)

/-- The hash after the stores of the iterations of a trace, on top of `hv`. -/
def replay_trace (hv : HV) (tr : List (List Nat × Option Iter)) : HV :=
  tr.foldl (fun acc e =>
    match e.2 with
    | some it => hv_store acc it.name (to_I32 it.colon) it.value
    | none => acc) hv

/-! ## Host values and the process-wide state -/

/-- A host value (`StradaValue`), which the bridge only sees through
`strada_to_str`; the function is supplied by the host runtime, so the value is
described by the string it projects to (`none` is a `NULL` result). -/
structure StradaValue where
  /-- The result of `strada_to_str` on this value. -/
  to_str : Option (List Nat)
  deriving DecidableEq

/-- The host-provided `strada_to_str`. -/
def strada_to_str (sv : StradaValue) : Option (List Nat) := sv.to_str

/-- `sv_to_cstr`: `if (!sv) return NULL; return strada_to_str(sv);`. -/
def sv_to_cstr (sv : Option StradaValue) : Option (List Nat) :=
  match sv with
  | none => none
  | some v => strada_to_str v

/-- The bytes of a C string up to its NUL, as `strdup` and `%s` copy them. -/
def cstr (s : List Nat) : List Nat := s.take (strlen s)

/-- `strdup(s)`; allocation is assumed to succeed. -/
def strdup (s : List Nat) : List Nat := cstr s

/-- `snprintf(buf, size, ...)` where `text` is the fully formatted output: at
most `size - 1` bytes are written before the NUL. -/
def snprintf (size : Nat) (text : List Nat) : List Nat := text.take (size - 1)

/-- Sum of two `size_t` quantities. -/
def size_add (a b : Nat) : Nat := (a + b) % 2 ^ 64

/-- The error scalar `ERRSV` as the bridge reads it: the answer of `SvTRUE` on
it and the text that `SvPV` gives. The two are independent inputs: a plain
string is false exactly when it is empty or `"0"`, but an exception object
answers through its overloaded truth value, whatever its text. -/
structure ErrSV where
  /-- The answer of `SvTRUE(ERRSV)`. -/
  is_true : Bool
  /-- The bytes given by `SvPV(ERRSV, len)`; their number is `len`. -/
  pv : List Nat
  deriving DecidableEq

/-- `SvTRUE(sv)` on the error scalar. -/
def SvTRUE (sv : ErrSV) : Bool := sv.is_true

/-- `SvPV(sv, len)` and `SvPV_nolen(sv)` on the error scalar. -/
def SvPV (sv : ErrSV) : List Nat := sv.pv

/-- A scalar handed to or returned by the interpreter. -/
inductive PerlArg
  | pv (s : List Nat)
  | hv_ref (hv : HV)
  | sv (v : Option (List Nat))
  deriving DecidableEq

/-- The calls into libperl and the writes to the standard error stream that
the bridge performs (`exit_destruct_end` is `PL_exit_flags |= PERL_EXIT_DESTRUCT_END`).
The scope macros around a dispatch (`ENTER`, `SAVETMPS`, `FREETMPS`, `LEAVE`)
and the reference counting of the context object are not recorded. -/
inductive Event
  | sys_init3
  | perl_alloc
  | perl_construct
  | exit_destruct_end
  | perl_parse (argv : List (List Nat))
  | perl_run
  | perl_destruct
  | perl_free
  | sys_term
  | eval_pv (code : List Nat)
  | call_method (name : List Nat) (args : List PerlArg)
  | call_pv (name : List Nat) (args : List PerlArg)
  | stderr (msg : List Nat)
  deriving DecidableEq

/-- The three process globals `my_perl`, `handler_sub`, `cannoli_pm_path`. -/
structure Bridge where
  /-- The interpreter (`NULL` when there is none). -/
  my_perl : Option Nat
  /-- The registered handler subroutine name. -/
  handler_sub : Option (List Nat)
  /-- The path to Cannoli.pm. -/
  cannoli_pm_path : Option (List Nat)
  deriving DecidableEq

/-- The globals at process start. -/
def Bridge.initial : Bridge := ⟨none, none, none⟩

/-- `perl_bridge_set_handler(handler_sv)`. -/
def perl_bridge_set_handler (handler_sv : Option StradaValue) (b : Bridge) : Bridge :=
  { b with handler_sub := (sv_to_cstr handler_sv).map strdup }

/-- `perl_bridge_set_cannoli_path(path_sv)`. -/
def perl_bridge_set_cannoli_path (path_sv : Option StradaValue) (b : Bridge) : Bridge :=
  { b with cannoli_pm_path := (sv_to_cstr path_sv).map strdup }

/-- `perl_bridge_get_handler()`. -/
def perl_bridge_get_handler (b : Bridge) : Option (List Nat) := b.handler_sub

/-- `perl_bridge_init(unused)`. The results of `perl_alloc()` (`alloc`, `none`
when it returns `NULL`) and of `perl_parse` (`parse_rc`) are inputs. The calls
into libperl are taken to return; nothing is said about a `PERL_SYS_INIT3`
that runs again after `PERL_SYS_TERM`, which libperl does not provide for. -/
def perl_bridge_init (_unused : Option (List Nat)) (alloc : Option Nat) (parse_rc : Int)
    (b : Bridge) : Int × Bridge × List Event :=
  match b.my_perl with
  | some _ => (1, b, [])
  | none =>
    match alloc with
    | none =>
      (0, { b with my_perl := none },
        [.sys_init3, .perl_alloc,
          .stderr (str "perl_bridge: Failed to allocate interpreter\n")])
    | some i =>
      if parse_rc ≠ 0 then
        (0, { b with my_perl := none },
          [.sys_init3, .perl_alloc, .perl_construct, .exit_destruct_end,
            .perl_parse [str "", str "-e", str "0"], .perl_destruct, .perl_free,
            .stderr (str "perl_bridge: Failed to parse\n")])
      else
        (1, { b with my_perl := some i },
          [.sys_init3, .perl_alloc, .perl_construct, .exit_destruct_end,
            .perl_parse [str "", str "-e", str "0"], .perl_run])

/-- `perl_bridge_is_init()`. -/
def perl_bridge_is_init (b : Bridge) : Int := if b.my_perl ≠ none then 1 else 0

/-- `perl_bridge_shutdown()`. -/
def perl_bridge_shutdown (b : Bridge) : Bridge × List Event :=
  let (b1, evs) : Bridge × List Event :=
    match b.my_perl with
    | some _ => ({ b with my_perl := none }, [.perl_destruct, .perl_free, .sys_term])
    | none => (b, [])
  let b2 : Bridge :=
    match b1.handler_sub with
    | some _ => { b1 with handler_sub := none }
    | none => b1
  let b3 : Bridge :=
    match b2.cannoli_pm_path with
    | some _ => { b2 with cannoli_pm_path := none }
    | none => b2
  (b3, evs)

/-- The tail shared by the loaders: `eval_pv(code, FALSE)`, then the test of
`ERRSV`, whose value after the evaluation is the input `errsv`. -/
def eval_and_check (code : List Nat) (errsv : ErrSV) (label : List Nat) (b : Bridge) :
    Int × Bridge × List Event :=
  if SvTRUE errsv then
    (0, b, [.eval_pv code, .stderr (label ++ cstr (SvPV errsv) ++ str "\n")])
  else (1, b, [.eval_pv code])

/-- `perl_bridge_add_inc(path_sv)`. -/
def perl_bridge_add_inc (path_sv : Option StradaValue) (errsv : ErrSV) (b : Bridge) :
    Int × Bridge × List Event :=
  match b.my_perl, sv_to_cstr path_sv with
  | some _, some path =>
    eval_and_check (snprintf 2048 (str "push @INC, '" ++ cstr path ++ str "'; 1;")) errsv
      (str "perl_bridge: add_inc error: ") b
  | _, _ => (0, b, [])

/-- `perl_bridge_use(module_sv)`. -/
def perl_bridge_use (module_sv : Option StradaValue) (errsv : ErrSV) (b : Bridge) :
    Int × Bridge × List Event :=
  match b.my_perl, sv_to_cstr module_sv with
  | some _, some module =>
    eval_and_check (snprintf 2048 (str "use " ++ cstr module ++ str "; 1;")) errsv
      (str "perl_bridge: use error: ") b
  | _, _ => (0, b, [])

/-- `perl_bridge_do(script_sv)`. -/
def perl_bridge_do (script_sv : Option StradaValue) (errsv : ErrSV) (b : Bridge) :
    Int × Bridge × List Event :=
  match b.my_perl with
  | none => (0, b, [.stderr (str "perl_bridge_do: Perl not initialized!\n")])
  | some _ =>
    match sv_to_cstr script_sv with
    | none => (0, b, [.stderr (str "perl_bridge_do: script is NULL!\n")])
    | some script =>
      eval_and_check (snprintf 4096 (str "do '" ++ cstr script ++ str "'; die $@ if $@; 1;"))
        errsv (str "perl_bridge: do error: ") b

/-- `perl_bridge_load_cannoli(path_sv)`. -/
def perl_bridge_load_cannoli (path_sv : Option StradaValue) (errsv : ErrSV) (b : Bridge) :
    Int × Bridge × List Event :=
  match b.my_perl with
  | none => (0, b, [])
  | some _ =>
    let path := sv_to_cstr path_sv
    let b1 := { b with cannoli_pm_path := path.map strdup }
    let code :=
      match path with
      | some q =>
        if strlen q > 0 then snprintf 4096 (str "require '" ++ cstr q ++ str "'; 1;")
        else snprintf 4096 (str "use Cannoli; 1;")
      | none => snprintf 4096 (str "use Cannoli; 1;")
    eval_and_check code errsv (str "perl_bridge: load Cannoli error: ") b1

/-- A lifecycle call together with the results libperl gives during it. -/
inductive Call
  | init (unused : Option (List Nat)) (alloc : Option Nat) (parse_rc : Int)
  | shutdown
  | set_handler (sv : Option StradaValue)
  | set_cannoli_path (sv : Option StradaValue)
  | add_inc (sv : Option StradaValue) (errsv : ErrSV)
  | use (sv : Option StradaValue) (errsv : ErrSV)
  | do_file (sv : Option StradaValue) (errsv : ErrSV)
  | load_cannoli (sv : Option StradaValue) (errsv : ErrSV)

/-- Whether a call is `perl_bridge_init`. -/
def Call.is_init_call : Call → Bool
  | .init _ _ _ => true
  | _ => false

/-- The globals after one lifecycle call. -/
def Call.run (c : Call) (b : Bridge) : Bridge :=
  match c with
  | .init u a r => (perl_bridge_init u a r b).2.1
  | .shutdown => (perl_bridge_shutdown b).1
  | .set_handler sv => perl_bridge_set_handler sv b
  | .set_cannoli_path sv => perl_bridge_set_cannoli_path sv b
  | .add_inc sv e => (perl_bridge_add_inc sv e b).2.1
  | .use sv e => (perl_bridge_use sv e b).2.1
  | .do_file sv e => (perl_bridge_do sv e b).2.1
  | .load_cannoli sv e => (perl_bridge_load_cannoli sv e b).2.1

/-- The globals after a sequence of lifecycle calls, first call first. -/
def run_calls (cs : List Call) (b : Bridge) : Bridge := cs.foldl (fun acc c => c.run acc) b

/-! ## Dispatch -/

/-- What a `call_method`/`call_pv` with `G_SCALAR | G_EVAL` leaves behind. -/
structure CallResult where
  /-- The error scalar `ERRSV` after the call. -/
  errsv : ErrSV
  /-- The returned count. -/
  count : Int
  /-- The scalar on top of the stack; `none` is an undefined value. -/
  ret : Option (List Nat)
  deriving DecidableEq

/-- The eight request inputs. -/
structure Request where
  method : Option StradaValue
  path : Option StradaValue
  path_info : Option StradaValue
  query_string : Option StradaValue
  body : Option StradaValue
  headers : Option StradaValue
  remote_addr : Option StradaValue
  content_type : Option StradaValue

/-- The error reply `snprintf(result, len + 32, "STATUS:500:%s", err)`, where
`len` is the length of the error scalar. -/
def status_500 (err : List Nat) : List Nat :=
  snprintf (size_add err.length 32) (str "STATUS:500:" ++ cstr err)

/-- Whether an event is a call of the method `_build_response`. -/
def Event.is_build_response : Event → Bool
  | .call_method name _ => name == str "_build_response"
  | _ => false

/-- The arguments of `Cannoli->new(...)`. -/
def new_args (r : Request) (headers_hv : HV) : List PerlArg :=
  [.pv (str "Cannoli"),
    .pv (str "method"), .pv (cstr ((sv_to_cstr r.method).getD (str "GET"))),
    .pv (str "path"), .pv (cstr ((sv_to_cstr r.path).getD (str "/"))),
    .pv (str "path_info"), .pv (cstr ((sv_to_cstr r.path_info).getD (str ""))),
    .pv (str "query_string"), .pv (cstr ((sv_to_cstr r.query_string).getD (str ""))),
    .pv (str "body"), .pv (cstr ((sv_to_cstr r.body).getD (str ""))),
    .pv (str "headers"), .hv_ref headers_hv,
    .pv (str "remote_addr"), .pv (cstr ((sv_to_cstr r.remote_addr).getD (str ""))),
    .pv (str "content_type"), .pv (cstr ((sv_to_cstr r.content_type).getD (str "")))]

/-- `perl_bridge_call_handler(sub_name_sv, method_sv, ..., content_type_sv)`.
The outcomes of the three interpreter calls (`new`, the handler,
`_build_response`) are inputs; an outcome is only used when its call is made.
The result is the returned string, the globals and the events performed;
`none` would mean that the header parser did not return. -/
def perl_bridge_call_handler (sub_name_sv : Option StradaValue) (r : Request)
    (new_r handler_r build_r : CallResult) (b : Bridge) :
    Option (List Nat × Bridge × List Event) :=
  match b.my_perl, sv_to_cstr sub_name_sv with
  | some _, some sub_name =>
    match parse_headers_to_hv (sv_to_cstr r.headers) with
    | none => none
    | some headers_hv =>
      let ev_new := Event.call_method (str "new") (new_args r headers_hv)
      if SvTRUE new_r.errsv ∨ new_r.count < 1 then
        some (strdup (str "STATUS:500:Failed to create Cannoli object"), b,
          if SvTRUE new_r.errsv then
            [ev_new, .stderr (str "perl_bridge: Cannoli->new error: " ++ cstr (SvPV new_r.errsv)
              ++ str "\n")]
          else [ev_new])
      else
        let cannoli_obj := PerlArg.sv new_r.ret
        let ev_handler := Event.call_pv (cstr sub_name) [cannoli_obj]
        if SvTRUE handler_r.errsv then
          let result := status_500 (SvPV handler_r.errsv)
          some (result, b,
            [ev_new, ev_handler,
              .stderr (str "perl_bridge: handler error: " ++ cstr (SvPV handler_r.errsv)
                ++ str "\n")])
        else
          let ev_build := Event.call_method (str "_build_response") [cannoli_obj]
          let result : Option (List Nat) :=
            if SvTRUE build_r.errsv then some (status_500 (SvPV build_r.errsv))
            else if build_r.count > 0 then build_r.ret
            else none
          some (match result with
            | some res => res
            | none => strdup (str ""), b, [ev_new, ev_handler, ev_build])
  | _, _ => some (strdup (str ""), b, [])

/-- `perl_bridge_eval(code)`. The result of `eval_pv` (`result`, `none` for an
undefined value) and the text of `ERRSV` after it are inputs. -/
def perl_bridge_eval (code : Option (List Nat)) (errsv : ErrSV)
    (result : Option (List Nat)) (b : Bridge) : List Nat × List Event :=
  match b.my_perl, code with
  | some _, some c =>
    if SvTRUE errsv then
      (snprintf (size_add (SvPV errsv).length 16) (str "ERROR:" ++ cstr (SvPV errsv)),
        [.eval_pv (cstr c)])
    else
      match result with
      | some res => (res, [.eval_pv (cstr c)])
      | none => (strdup (str ""), [.eval_pv (cstr c)])
  | _, _ => (strdup (str ""), [])

/-- `perl_bridge_get_error()`; `errsv` is the text of `ERRSV`. -/
def perl_bridge_get_error (errsv : ErrSV) (b : Bridge) : List Nat :=
  match b.my_perl with
  | none => strdup (str "Perl not initialized")
  | some _ => if SvTRUE errsv then strdup (SvPV errsv) else strdup (str "")

/-! ## Helper lemmas: C library functions -/

theorem byteAt_nil (i : Nat) : byteAt [] i = 0 := by
  simp [byteAt]

theorem byteAt_cons_zero (b : Nat) (bs : List Nat) : byteAt (b :: bs) 0 = b := by
  simp [byteAt]

theorem byteAt_append_length (l r : List Nat) : byteAt (l ++ r) l.length = byteAt r 0 := by
  induction l with
  | nil => simp
  | cons b bs ih => simpa [byteAt] using ih

theorem byteAt_append_left (l r : List Nat) (i : Nat) (h : i < l.length) :
    byteAt (l ++ r) i = byteAt l i := by
  simp [byteAt, List.getD_eq_getElem?_getD, List.getElem?_append_left h]

theorem strchr_append_hit (pre rest : List Nat) (c : Nat) (h1 : c ∉ pre) (h0 : 0 ∉ pre) :
    strchr (pre ++ c :: rest) c = some pre.length := by
  induction pre with
  | nil => simp [strchr]
  | cons b bs ih =>
    simp only [List.mem_cons, not_or] at h1 h0
    have hb : b ≠ c := fun h => h1.1 h.symm
    have hb0 : b ≠ 0 := fun h => h0.1 h.symm
    simp [strchr, hb, hb0, ih h1.2 h0.2]

theorem strchr_append_stop (pre rest : List Nat) (c : Nat) (hc : c ≠ 0) (h1 : c ∉ pre)
    (hr : byteAt rest 0 = 0) : strchr (pre ++ rest) c = none := by
  induction pre with
  | nil =>
    cases rest with
    | nil => simp [strchr, hc]
    | cons r rs =>
      rw [byteAt_cons_zero] at hr
      subst hr
      simp [strchr, Ne.symm hc]
  | cons b bs ih =>
    simp only [List.mem_cons, not_or] at h1
    have hb : b ≠ c := fun h => h1.1 h.symm
    by_cases hb0 : b = 0
    · subst hb0
      simp [strchr, Ne.symm hc]
    · simp [strchr, hb, hb0, ih h1.2]

theorem strchr_none_of_not_mem (l : List Nat) (c : Nat) (hc : c ≠ 0) (h : c ∉ l) :
    strchr l c = none := by
  simpa using strchr_append_stop l [] c hc h (byteAt_nil 0)

theorem strlen_append (pre rest : List Nat) (h0 : 0 ∉ pre) :
    strlen (pre ++ rest) = pre.length + strlen rest := by
  induction pre with
  | nil => simp
  | cons b bs ih =>
    simp only [List.mem_cons, not_or] at h0
    have hb0 : b ≠ 0 := fun h => h0.1 h.symm
    simp [strlen, hb0, ih h0.2]
    omega

theorem strlen_of_byteAt_zero (rest : List Nat) (hr : byteAt rest 0 = 0) : strlen rest = 0 := by
  cases rest with
  | nil => rfl
  | cons r rs =>
    rw [byteAt_cons_zero] at hr
    simp [strlen, hr]

theorem strchr_some (p : List Nat) (c i : Nat) (hc : c ≠ 0) (h : strchr p c = some i) :
    i < p.length ∧ p = p.take i ++ c :: p.drop (i + 1) ∧ c ∉ p.take i ∧ 0 ∉ p.take i := by
  induction p generalizing i with
  | nil => simp [strchr, hc] at h
  | cons b bs ih =>
    unfold strchr at h
    by_cases hb : b = c
    · simp only [hb, if_true, Option.some.injEq] at h
      subst h
      simp [hb]
    · by_cases hb0 : b = 0
      · subst hb0
        simp [Ne.symm hc] at h
      · simp only [hb, hb0, if_false, Option.map_eq_some'] at h
        obtain ⟨j, hj, rfl⟩ := h
        obtain ⟨h1, h2, h3, h4⟩ := ih j hj
        refine ⟨by simpa using h1, ?_, ?_, ?_⟩
        · simpa using h2
        · simp only [List.take_succ_cons, List.mem_cons, not_or]
          exact ⟨fun h => hb h.symm, h3⟩
        · simp only [List.take_succ_cons, List.mem_cons, not_or]
          exact ⟨fun h => hb0 h.symm, h4⟩

theorem count_spaces_le (l : List Nat) : count_spaces l ≤ l.length := by
  induction l with
  | nil => simp [count_spaces]
  | cons b bs ih =>
    unfold count_spaces
    split
    · simp only [List.length_cons]
      omega
    · simp

theorem count_spaces_append (body rest : List Nat) (hr : byteAt rest 0 ≠ 32) :
    count_spaces (body ++ rest) = count_spaces body := by
  induction body with
  | nil =>
    cases rest with
    | nil => rfl
    | cons r rs =>
      rw [byteAt_cons_zero] at hr
      simp [count_spaces, hr]
  | cons b bs ih =>
    show count_spaces (b :: (bs ++ rest)) = count_spaces (b :: bs)
    simp only [count_spaces, ih]

theorem count_spaces_of_head (l : List Nat) (h : l.head? ≠ some 32) : count_spaces l = 0 := by
  cases l with
  | nil => rfl
  | cons b bs =>
    have hb : b ≠ 32 := by simpa using h
    simp [count_spaces, hb]

theorem count_spaces_replicate (k : Nat) (v : List Nat) (h : v.head? ≠ some 32) :
    count_spaces (List.replicate k 32 ++ v) = k := by
  induction k with
  | zero => simpa using count_spaces_of_head v h
  | succ k ih => simp [List.replicate_succ, count_spaces, ih]

theorem trim_crlf_le (v : List Nat) (n : Nat) : trim_crlf v n ≤ n := by
  induction n with
  | zero => simp [trim_crlf]
  | succ n ih =>
    unfold trim_crlf
    split <;> omega

theorem trim_crlf_append (v rest : List Nat) (n : Nat) (h : n ≤ v.length) :
    trim_crlf (v ++ rest) n = trim_crlf v n := by
  induction n with
  | zero => simp [trim_crlf]
  | succ n ih =>
    have hn : n < v.length := h
    simp only [trim_crlf, byteAt_append_left v rest n hn, ih (Nat.le_of_lt hn)]

theorem trim_crlf_full (v : List Nat) (h13 : v.getLast? ≠ some 13) (h10 : 10 ∉ v) :
    trim_crlf v v.length = v.length := by
  rcases List.eq_nil_or_concat v with rfl | ⟨w, c, rfl⟩
  · rfl
  · have hc13 : c ≠ 13 := by simpa using h13
    have hc10 : c ≠ 10 := by
      intro hc
      apply h10
      simp [hc]
    have hb : byteAt (w ++ [c]) w.length = c := by
      rw [byteAt_append_length, byteAt_cons_zero]
    simp [trim_crlf, hb, hc13, hc10]

/-! ## Helper lemmas: one iteration on a line `name ":" body` -/

theorem find_eol_line (name body rest : List Nat) (hn0 : 0 ∉ name) (hb10 : 10 ∉ body)
    (hb0 : 0 ∉ body) (hr : byteAt rest 0 = 0 ∨ byteAt rest 0 = 10) :
    find_eol (name ++ 58 :: (body ++ rest)) name.length = name.length + 1 + body.length := by
  have hdrop : (name ++ 58 :: (body ++ rest)).drop name.length = 58 :: (body ++ rest) := by simp
  unfold find_eol
  rw [hdrop]
  rcases hr with hr | hr
  · have h1 : strchr (body ++ rest) 10 = none := strchr_append_stop _ _ _ (by decide) hb10 hr
    have h2 : strlen (name ++ 58 :: (body ++ rest)) = name.length + 1 + body.length := by
      rw [strlen_append _ _ hn0]
      simp only [strlen]
      rw [strlen_append _ _ hb0, strlen_of_byteAt_zero rest hr]
      simp
      omega
    simp [strchr, h1, h2]
  · cases rest with
    | nil => simp [byteAt] at hr
    | cons r rs =>
      rw [byteAt_cons_zero] at hr
      subst hr
      have h1 : strchr (body ++ 10 :: rs) 10 = some body.length :=
        strchr_append_hit _ _ _ hb10 hb0
      simp [strchr, h1]
      omega

theorem header_value_append (body rest : List Nat) :
    ((body.drop (count_spaces body)) ++ rest).take
        (trim_crlf ((body.drop (count_spaces body)) ++ rest) (body.length - count_spaces body))
      = header_value body := by
  have hl : (body.drop (count_spaces body)).length = body.length - count_spaces body := by simp
  rw [← hl, trim_crlf_append _ _ _ (Nat.le_refl _)]
  unfold header_value
  simp only []
  rw [List.take_append_of_le_length (trim_crlf_le _ _)]

theorem parse_line_line (name body rest : List Nat)
    (hn0 : 0 ∉ name) (hb10 : 10 ∉ body) (hb0 : 0 ∉ body)
    (hr : byteAt rest 0 = 0 ∨ byteAt rest 0 = 10) :
    parse_line (name ++ 58 :: (body ++ rest)) name.length =
      ⟨name.length, name.length + 1 + body.length,
        name.length + 1 + count_spaces body, body.length - count_spaces body,
        name.map lower_byte, header_value body,
        if byteAt rest 0 ≠ 0 then name.length + 1 + body.length + 1
        else name.length + 1 + body.length⟩ := by
  have heol := find_eol_line name body rest hn0 hb10 hb0 hr
  have hr32 : byteAt rest 0 ≠ 32 := by rcases hr with hr | hr <;> rw [hr] <;> decide
  have hskip : skip_spaces (name ++ 58 :: (body ++ rest)) (name.length + 1)
      = name.length + 1 + count_spaces body := by
    have hd : (name ++ 58 :: (body ++ rest)).drop (name.length + 1) = body ++ rest := by
      rw [List.drop_append_eq_append_drop]
      simp
    rw [skip_spaces, hd, count_spaces_append _ _ hr32]
  have hle := count_spaces_le body
  have hsub : size_sub (name.length + 1 + body.length) (name.length + 1 + count_spaces body)
      = body.length - count_spaces body := by
    unfold size_sub
    rw [if_pos (by omega)]
    omega
  have hv : (name ++ 58 :: (body ++ rest)).drop (name.length + 1 + count_spaces body)
      = body.drop (count_spaces body) ++ rest := by
    rw [List.drop_append_eq_append_drop]
    have h1 : name.length + 1 + count_spaces body - name.length = count_spaces body + 1 := by omega
    have h2 : List.drop (name.length + 1 + count_spaces body) name = [] :=
      List.drop_eq_nil_of_le (by omega)
    rw [h1, h2, List.nil_append, List.drop_succ_cons, List.drop_append_of_le_length hle]
  have hbyte : byteAt (name ++ 58 :: (body ++ rest)) (name.length + 1 + body.length)
      = byteAt rest 0 := by
    have h3 : name ++ 58 :: (body ++ rest) = (name ++ 58 :: body) ++ rest := by simp
    have h4 : name.length + 1 + body.length = (name ++ 58 :: body).length := by
      simp
      omega
    rw [h3, h4, byteAt_append_length]
  have hname : ((name ++ 58 :: (body ++ rest)).take name.length) = name := by simp
  simp only [parse_line, heol, hskip, hsub, hv, hbyte, hname, header_value_append]

theorem parse_iter_line (name body rest : List Nat)
    (hn58 : 58 ∉ name) (hn0 : 0 ∉ name) (hb10 : 10 ∉ body) (hb0 : 0 ∉ body)
    (hr : byteAt rest 0 = 0 ∨ byteAt rest 0 = 10) :
    parse_iter (name ++ 58 :: (body ++ rest)) =
      some ⟨name.length, name.length + 1 + body.length,
        name.length + 1 + count_spaces body, body.length - count_spaces body,
        name.map lower_byte, header_value body,
        if byteAt rest 0 ≠ 0 then name.length + 1 + body.length + 1
        else name.length + 1 + body.length⟩ := by
  unfold parse_iter
  rw [strchr_append_hit _ _ _ hn58 hn0]
  simp only []
  rw [parse_line_line name body rest hn0 hb10 hb0 hr]

theorem byteAt_line_start (name rest : List Nat) (hn0 : 0 ∉ name) :
    byteAt (name ++ 58 :: rest) 0 ≠ 0 := by
  cases name with
  | nil => simp [byteAt]
  | cons b bs =>
    simp only [List.mem_cons, not_or] at hn0
    simpa [byteAt] using Ne.symm hn0.1

/-! ## Helper lemmas: the loop on a block of lines -/

theorem parse_loop_line (f : Nat) (name body rest : List Nat) (hv : HV)
    (hn58 : 58 ∉ name) (hn0 : 0 ∉ name) (hb10 : 10 ∉ body) (hb0 : 0 ∉ body) :
    parse_loop (f + 1) (name ++ 58 :: (body ++ 10 :: rest)) hv
      = parse_loop f rest
          (hv_store hv (name.map lower_byte) (to_I32 name.length) (header_value body)) := by
  have hnext : (name ++ 58 :: (body ++ 10 :: rest)).drop (name.length + 1 + body.length + 1)
      = rest := by
    have h3 : name ++ 58 :: (body ++ 10 :: rest) = (name ++ 58 :: (body ++ [10])) ++ rest := by
      simp
    have h4 : name.length + 1 + body.length + 1 = (name ++ 58 :: (body ++ [10])).length := by
      simp
      omega
    rw [h3, h4, List.drop_left]
  rw [parse_loop, if_neg (byteAt_line_start name _ hn0),
    parse_iter_line name body (10 :: rest) hn58 hn0 hb10 hb0 (Or.inr (byteAt_cons_zero _ _))]
  simp only [byteAt_cons_zero]
  rw [if_pos (by decide), hnext]

theorem parse_loop_stop (f : Nat) (tail : List Nat) (hv : HV) (ht : 58 ∉ tail) :
    parse_loop (f + 1) tail hv = some hv := by
  rw [parse_loop]
  split
  · rfl
  · simp [parse_iter, strchr_none_of_not_mem tail 58 (by decide) ht]

theorem parse_loop_last (f : Nat) (name body : List Nat) (hv : HV)
    (hn58 : 58 ∉ name) (hn0 : 0 ∉ name) (hb10 : 10 ∉ body) (hb0 : 0 ∉ body) :
    parse_loop (f + 2) (name ++ 58 :: body) hv
      = some (hv_store hv (name.map lower_byte) (to_I32 name.length) (header_value body)) := by
  have hnext : (name ++ 58 :: (body ++ [])).drop (name.length + 1 + body.length) = [] := by
    apply List.drop_eq_nil_of_le
    simp
    omega
  have hp : name ++ 58 :: body = name ++ 58 :: (body ++ []) := by simp
  rw [hp, parse_loop, if_neg (byteAt_line_start name _ hn0),
    parse_iter_line name body [] hn58 hn0 hb10 hb0 (Or.inl (byteAt_nil 0))]
  simp only [byteAt_nil]
  rw [if_neg (by decide), hnext]
  exact parse_loop_stop f [] _ (by simp)

theorem parse_loop_block (lines : List (List Nat × List Nat)) (hok : lines_ok lines)
    (tail : List Nat) (ht : 58 ∉ tail) (k : Nat) (hv : HV) :
    parse_loop (lines.length + 1 + k) (block_raw lines ++ tail) hv
      = some (store_lines hv lines) := by
  induction lines generalizing hv with
  | nil =>
    have h : ([] : List (List Nat × List Nat)).length + 1 + k = k + 1 := by simp; omega
    rw [h]
    simpa [block_raw, store_lines] using parse_loop_stop k tail hv ht
  | cons l ls ih =>
    obtain ⟨h1, h2, h3, h4⟩ := hok l (List.mem_cons_self _ _)
    have hok2 : lines_ok ls := fun x hx => hok x (List.mem_cons_of_mem _ hx)
    have hf : (l :: ls).length + 1 + k = (ls.length + 1 + k) + 1 := by simp; omega
    have hp : block_raw (l :: ls) ++ tail = l.1 ++ 58 :: (l.2 ++ 10 :: (block_raw ls ++ tail)) := by
      simp [block_raw]
    rw [hf, hp, parse_loop_line _ _ _ _ _ h1 h2 h3 h4, ih hok2]
    rfl

theorem length_block_raw (lines : List (List Nat × List Nat)) :
    lines.length ≤ (block_raw lines).length := by
  induction lines with
  | nil => simp
  | cons l ls ih =>
    simp only [block_raw, List.length_cons, List.length_append]
    omega

theorem parse_block_raw (lines : List (List Nat × List Nat)) (hok : lines_ok lines)
    (tail : List Nat) (ht : 58 ∉ tail) :
    parse_headers_to_hv (some (block_raw lines ++ tail)) = some (store_lines [] lines) := by
  unfold parse_headers_to_hv
  simp only []
  split
  · cases lines with
    | nil => rfl
    | cons l ls =>
      rename_i h
      obtain ⟨h1, h2, h3, h4⟩ := hok l (List.mem_cons_self _ _)
      exfalso
      have hp : block_raw (l :: ls) ++ tail = l.1 ++ 58 :: (l.2 ++ 10 :: (block_raw ls ++ tail)) := by
        simp [block_raw]
      rw [hp] at h
      exact byteAt_line_start _ _ h2 h
  · have hlen := length_block_raw lines
    have hf : (block_raw lines ++ tail).length + 1
        = lines.length + 1 + ((block_raw lines ++ tail).length - lines.length) := by
      simp only [List.length_append]
      omega
    rw [hf]
    exact parse_loop_block lines hok tail ht _ newHV

theorem parse_single_unterminated (name body : List Nat)
    (hn58 : 58 ∉ name) (hn0 : 0 ∉ name) (hb10 : 10 ∉ body) (hb0 : 0 ∉ body) :
    parse_headers_to_hv (some (name ++ 58 :: body))
      = some (hv_store newHV (name.map lower_byte) (to_I32 name.length)
          (header_value body)) := by
  unfold parse_headers_to_hv
  simp only []
  rw [if_neg (byteAt_line_start name _ hn0)]
  have hf : (name ++ 58 :: body).length + 1 = (name.length + body.length) + 2 := by
    simp
    omega
  rw [hf, parse_loop_last _ _ _ _ hn58 hn0 hb10 hb0]

/-! ## Helper lemmas: the hash -/

theorem mem_hv_insert (hv : HV) (k v : List Nat) (e : List Nat × List Nat)
    (h : e ∈ hv_insert hv k v) : e ∈ hv ∨ e = (k, v) := by
  induction hv with
  | nil => simpa [hv_insert] using h
  | cons x xs ih =>
    unfold hv_insert at h
    split at h
    · rcases List.mem_cons.1 h with h | h
      · exact Or.inr h
      · exact Or.inl (List.mem_cons_of_mem _ h)
    · rcases List.mem_cons.1 h with h | h
      · exact Or.inl (h ▸ List.mem_cons_self _ _)
      · rcases ih h with h | h
        · exact Or.inl (List.mem_cons_of_mem _ h)
        · exact Or.inr h

theorem hv_insert_new (hv : HV) (k v : List Nat) (h : k ∉ hv.map Prod.fst) :
    hv_insert hv k v = hv ++ [(k, v)] := by
  induction hv with
  | nil => rfl
  | cons x xs ih =>
    simp only [List.map_cons, List.mem_cons, not_or] at h
    have hx : x.1 ≠ k := fun hx => h.1 hx.symm
    simp [hv_insert, hx, ih h.2]

theorem to_I32_small (n : Nat) (h : n < 2 ^ 31) : to_I32 n = (n : Int) := by
  have h32 : n % 2 ^ 32 = n := Nat.mod_eq_of_lt (by omega)
  unfold to_I32
  rw [h32, if_pos h]

theorem hv_store_small (hv : HV) (key v : List Nat) (h : key.length < 2 ^ 31) :
    hv_store hv key (to_I32 key.length) v = hv_insert hv key v := by
  rw [hv_store, to_I32_small _ h, Int.natAbs_ofNat, List.take_length]

theorem mem_hv_store (hv : HV) (key : List Nat) (klen : Int) (v : List Nat)
    (e : List Nat × List Nat) (h : e ∈ hv_store hv key klen v) :
    e ∈ hv ∨ e = (key.take klen.natAbs, v) :=
  mem_hv_insert hv _ v e h

theorem mem_keys_hv_insert (hv : HV) (k v k' : List Nat)
    (h : k' = k ∨ k' ∈ hv.map Prod.fst) : k' ∈ (hv_insert hv k v).map Prod.fst := by
  induction hv with
  | nil =>
    rcases h with h | h
    · simp [hv_insert, h]
    · simp at h
  | cons x xs ih =>
    unfold hv_insert
    split
    · rename_i hx
      rcases h with h | h
      · simp [h]
      · simp only [List.map_cons, List.mem_cons] at h ⊢
        rcases h with h | h
        · exact Or.inl (h.trans hx)
        · exact Or.inr h
    · rcases h with h | h
      · simp only [List.map_cons, List.mem_cons]
        exact Or.inr (ih (Or.inl h))
      · simp only [List.map_cons, List.mem_cons] at h ⊢
        rcases h with h | h
        · exact Or.inl h
        · exact Or.inr (ih (Or.inr h))

theorem store_lines_distinct (lines : List (List Nat × List Nat)) (hv : HV)
    (hb : ∀ l ∈ lines, l.1.length < 2 ^ 31)
    (h : (hv.map Prod.fst ++ lines.map (fun l => l.1.map lower_byte)).Nodup) :
    store_lines hv lines
      = hv ++ lines.map (fun l => (l.1.map lower_byte, header_value l.2)) := by
  induction lines generalizing hv with
  | nil => simp [store_lines]
  | cons l ls ih =>
    have hnew : l.1.map lower_byte ∉ hv.map Prod.fst := by
      intro hm
      have := List.nodup_append.1 h
      exact this.2.2 hm (List.mem_cons_self _ _)
    have hlen : (l.1.map lower_byte).length < 2 ^ 31 := by
      rw [List.length_map]
      exact hb l (List.mem_cons_self _ _)
    have hstep : store_lines hv (l :: ls)
        = store_lines (hv_store hv (l.1.map lower_byte) (to_I32 (l.1.map lower_byte).length)
            (header_value l.2)) ls := by
      rw [List.length_map]
      rfl
    rw [hstep, hv_store_small hv _ _ hlen, hv_insert_new hv _ _ hnew, ih]
    · simp
    · exact fun x hx => hb x (List.mem_cons_of_mem _ hx)
    · simpa [List.map_append] using h

theorem mem_store_lines (lines : List (List Nat × List Nat)) (hv : HV)
    (e : List Nat × List Nat) (h : e ∈ store_lines hv lines) :
    e ∈ hv ∨ ∃ l ∈ lines, e.2 = header_value l.2 := by
  induction lines generalizing hv with
  | nil => exact Or.inl h
  | cons l ls ih =>
    have hstep : store_lines hv (l :: ls)
        = store_lines (hv_store hv (l.1.map lower_byte) (to_I32 l.1.length)
            (header_value l.2)) ls := rfl
    rw [hstep] at h
    rcases ih _ h with h | ⟨x, hx, hx2⟩
    · rcases mem_hv_store _ _ _ _ _ h with h | h
      · exact Or.inl h
      · exact Or.inr ⟨l, List.mem_cons_self _ _, by rw [h]⟩
    · exact Or.inr ⟨x, List.mem_cons_of_mem _ hx, hx2⟩

/-! ## Helper lemmas: the stored value -/

theorem header_value_spaces (k : Nat) (v : List Nat) (h32 : v.head? ≠ some 32)
    (h13 : v.getLast? ≠ some 13) (h10 : 10 ∉ v) :
    header_value (List.replicate k 32 ++ v) = v := by
  unfold header_value
  simp only []
  rw [count_spaces_replicate k v h32]
  have hd : (List.replicate k 32 ++ v).drop k = v := by
    have := List.drop_left (List.replicate k 32) v
    rw [List.length_replicate] at this
    exact this
  rw [hd, trim_crlf_full v h13 h10, List.take_length]

theorem header_value_cr (body : List Nat) : header_value (body ++ [13]) = header_value body := by
  have hcs : count_spaces (body ++ [13]) = count_spaces body :=
    count_spaces_append body [13] (by simp [byteAt])
  have hle := count_spaces_le body
  unfold header_value
  simp only []
  rw [hcs, List.drop_append_of_le_length hle]
  generalize body.drop (count_spaces body) = w
  have hb : byteAt (w ++ [13]) w.length = 13 := by
    rw [byteAt_append_length, byteAt_cons_zero]
  have hlen : (w ++ [13]).length = w.length + 1 := by simp
  rw [hlen, trim_crlf, hb, if_pos (Or.inl rfl), trim_crlf_append _ _ _ (Nat.le_refl _),
    List.take_append_of_le_length (trim_crlf_le _ _)]

theorem take_trim_getLast (v : List Nat) (n : Nat) (hn : n ≤ v.length) (c : Nat)
    (h : (v.take (trim_crlf v n)).getLast? = some c) : c ≠ 13 ∧ c ≠ 10 := by
  induction n with
  | zero => simp [trim_crlf] at h
  | succ n ih =>
    have hlt : n < v.length := hn
    unfold trim_crlf at h
    split at h
    · exact ih (Nat.le_of_lt hlt) h
    · rename_i hb
      have hget : byteAt v n = v[n] := by
        simp [byteAt, List.getD_eq_getElem?_getD, List.getElem?_eq_getElem hlt]
      rw [List.take_succ, List.getElem?_eq_getElem hlt] at h
      simp only [Option.toList, List.getLast?_concat, Option.some.injEq] at h
      rw [hget, h] at hb
      exact not_or.1 hb

theorem header_value_last (body : List Nat) (c : Nat)
    (h : (header_value body).getLast? = some c) : c ≠ 13 ∧ c ≠ 10 :=
  take_trim_getLast _ _ (Nat.le_refl _) c h

theorem header_value_subset (body : List Nat) (c : Nat) (h : c ∈ header_value body) :
    c ∈ body :=
  List.mem_of_mem_drop (List.mem_of_mem_take h)

/-! ## Helper lemmas: the loop on an arbitrary input -/

theorem parse_iter_some (p : List Nat) (it : Iter) (h : parse_iter p = some it) :
    ∃ colon, strchr p 58 = some colon ∧ it = parse_line p colon := by
  unfold parse_iter at h
  split at h
  · exact absurd h (by simp)
  · rename_i colon hc
    exact ⟨colon, hc, (Option.some.inj h).symm⟩

theorem parse_iter_next_pos (p : List Nat) (it : Iter) (h : parse_iter p = some it)
    (hp : byteAt p 0 ≠ 0) : 0 < it.next := by
  obtain ⟨colon, _, rfl⟩ := parse_iter_some p it h
  show 0 < (if byteAt p (find_eol p colon) ≠ 0 then find_eol p colon + 1 else find_eol p colon)
  split
  · omega
  · rename_i hz
    rcases Nat.eq_zero_or_pos (find_eol p colon) with h0 | h0
    · rw [h0] at hz
      exact absurd hz (not_not.2 hp)
    · exact h0

theorem length_drop_next (p : List Nat) (it : Iter) (h : parse_iter p = some it)
    (hp : byteAt p 0 ≠ 0) : (p.drop it.next).length < p.length := by
  have hpos := parse_iter_next_pos p it h hp
  have hne : 0 < p.length := by
    cases p with
    | nil => exact absurd (byteAt_nil 0) hp
    | cons b bs => simp
  rw [List.length_drop]
  omega

theorem parse_loop_total (fuel : Nat) (p : List Nat) (hv : HV) (h : p.length < fuel) :
    ∃ m, parse_loop fuel p hv = some m := by
  induction fuel generalizing p hv with
  | zero => omega
  | succ f ih =>
    rw [parse_loop]
    split
    · exact ⟨hv, rfl⟩
    · rename_i hp
      split
      · exact ⟨hv, rfl⟩
      · rename_i it hit
        have := length_drop_next p it hit hp
        exact ih _ _ (by omega)

theorem parse_headers_total (headers_str : Option (List Nat)) :
    ∃ m, parse_headers_to_hv headers_str = some m := by
  unfold parse_headers_to_hv
  split
  · exact ⟨newHV, rfl⟩
  · split
    · exact ⟨newHV, rfl⟩
    · exact parse_loop_total _ _ _ (Nat.lt_succ_self _)

theorem is_space_lower_byte (c : Nat) : is_space (lower_byte c) = is_space c := by
  unfold lower_byte
  split
  · rename_i h
    have h1 : is_space (c + 32) = false := by
      simp only [is_space, Bool.or_eq_false_iff, Bool.and_eq_false_iff, beq_eq_false_iff_ne,
        decide_eq_false_iff_not]
      omega
    have h2 : is_space c = false := by
      simp only [is_space, Bool.or_eq_false_iff, Bool.and_eq_false_iff, beq_eq_false_iff_ne,
        decide_eq_false_iff_not]
      omega
    rw [h1, h2]
  · rfl

theorem is_trimmed_map_lower (l : List Nat) :
    is_trimmed (l.map lower_byte) = is_trimmed l := by
  have h1 : ((l.map lower_byte).head?).any is_space = (l.head?).any is_space := by
    cases l with
    | nil => rfl
    | cons b bs => simp [Option.any, is_space_lower_byte]
  have h2 : ((l.map lower_byte).getLast?).any is_space = (l.getLast?).any is_space := by
    rcases List.eq_nil_or_concat l with rfl | ⟨w, c, rfl⟩
    · rfl
    · simp [Option.any, is_space_lower_byte]
  simp only [is_trimmed, h1, h2]

/-! ## Helper lemmas: header blocks -/

theorem header_block_lf (lines : List (List Nat × List Nat)) :
    header_block [10] lines = block_raw (lines.map (fun l => (l.1, 32 :: l.2))) := by
  induction lines with
  | nil => rfl
  | cons l ls ih => simp [header_block, block_raw, ih]

theorem header_block_crlf (lines : List (List Nat × List Nat)) :
    header_block [13, 10] lines = block_raw (lines.map (fun l => (l.1, 32 :: (l.2 ++ [13])))) := by
  induction lines with
  | nil => rfl
  | cons l ls ih => simp [header_block, block_raw, ih]

theorem lines_ok_lf (lines : List (List Nat × List Nat)) (h : ∀ l ∈ lines, plain_line l) :
    lines_ok (lines.map (fun l => (l.1, 32 :: l.2))) := by
  intro x hx
  obtain ⟨l, hl, rfl⟩ := List.mem_map.1 hx
  obtain ⟨h1, _, h3, h4, h5⟩ := h l hl
  refine ⟨h1, h3, ?_, ?_⟩
  · simpa using h4
  · simpa using h5

theorem lines_ok_crlf (lines : List (List Nat × List Nat)) (h : ∀ l ∈ lines, plain_line l) :
    lines_ok (lines.map (fun l => (l.1, 32 :: (l.2 ++ [13])))) := by
  intro x hx
  obtain ⟨l, hl, rfl⟩ := List.mem_map.1 hx
  obtain ⟨h1, _, h3, h4, h5⟩ := h l hl
  refine ⟨h1, h3, ?_, ?_⟩
  · simpa using h4
  · simpa using h5

theorem plain_of_well_formed (lines : List (List Nat × List Nat)) (h : well_formed lines) :
    ∀ l ∈ lines, plain_line l := by
  intro l hl
  obtain ⟨_, h2, h3, h4, h5, h6, _, _⟩ := h.1 l hl
  exact ⟨h2, h3, h4, h5, h6⟩

theorem store_lines_lf_well_formed (lines : List (List Nat × List Nat))
    (h : well_formed lines) (hb : short_names lines) :
    store_lines [] (lines.map (fun l => (l.1, 32 :: l.2)))
      = lines.map (fun l => (l.1.map lower_byte, l.2)) := by
  have hb2 : ∀ x ∈ lines.map (fun l => (l.1, 32 :: l.2)), x.1.length < 2 ^ 31 := by
    intro x hx
    obtain ⟨l, hl, rfl⟩ := List.mem_map.1 hx
    exact hb l hl
  rw [store_lines_distinct _ _ hb2]
  · simp only [List.nil_append, List.map_map]
    apply List.map_congr_left
    intro l hl
    obtain ⟨_, _, _, _, h5, _, h7, h8⟩ := h.1 l hl
    have := header_value_spaces 1 l.2 h7 h8 h5
    simp only [Function.comp, Prod.mk.injEq, true_and]
    simpa using this
  · simpa [List.map_map, Function.comp] using h.2

theorem store_lines_crlf (lines : List (List Nat × List Nat)) (hv : HV) :
    store_lines hv (lines.map (fun l => (l.1, 32 :: (l.2 ++ [13]))))
      = store_lines hv (lines.map (fun l => (l.1, 32 :: l.2))) := by
  induction lines generalizing hv with
  | nil => rfl
  | cons l ls ih =>
    have hcr : header_value (32 :: (l.2 ++ [13])) = header_value (32 :: l.2) :=
      header_value_cr (32 :: l.2)
    simp only [List.map_cons, store_lines, List.foldl_cons, hcr]
    exact ih _

theorem parse_header_block_tail (lines : List (List Nat × List Nat)) (h : well_formed lines)
    (hb : short_names lines) (tail : List Nat) (ht : 58 ∉ tail) :
    parse_headers_to_hv (some (header_block [10] lines ++ tail))
      = some (lines.map (fun l => (l.1.map lower_byte, l.2))) := by
  rw [header_block_lf, parse_block_raw _ (lines_ok_lf lines (plain_of_well_formed lines h)) tail ht,
    store_lines_lf_well_formed lines h hb]

theorem parse_plain_block_tail (lines : List (List Nat × List Nat))
    (h : ∀ l ∈ lines, plain_line l) (tail : List Nat) (ht : 58 ∉ tail) :
    parse_headers_to_hv (some (header_block [10] lines ++ tail))
      = some (store_lines [] (lines.map (fun l => (l.1, 32 :: l.2)))) := by
  rw [header_block_lf, parse_block_raw _ (lines_ok_lf lines h) tail ht]

theorem to_I32_giant : to_I32 4294967297 = 1 := by
  decide

theorem parse_giant_name (name : List Nat) (hlen : name.length = 4294967297)
    (hn58 : 58 ∉ name) (hn0 : 0 ∉ name) :
    parse_headers_to_hv (some (header_block [10] [(name, str "x")]))
      = some [((name.map lower_byte).take 1, str "x")] := by
  have hok : lines_ok ([(name, str "x")].map (fun l => (l.1, 32 :: l.2))) := by
    intro l hl
    simp only [List.map_cons, List.map_nil, List.mem_singleton] at hl
    subst hl
    have h10 : 10 ∉ 32 :: str "x" := by decide
    have h0 : 0 ∉ 32 :: str "x" := by decide
    exact ⟨hn58, hn0, h10, h0⟩
  have h := parse_block_raw _ hok [] (by simp)
  rw [List.append_nil] at h
  rw [header_block_lf, h]
  have hval : header_value (32 :: str "x") = str "x" := by decide
  simp only [List.map_cons, List.map_nil, store_lines, List.foldl_cons, List.foldl_nil, hlen,
    to_I32_giant, hv_store, hval]
  rfl

/-! ## The header parser: claims C1, C2, C3 and C5 -/

/-- C1, as stated, fails for a name of 2^31 bytes or more: `name_len` is passed
to `hv_store` as an `I32`. The block of the single line whose name is
4294967297 (2^32 + 1) letters `A` and whose value is `x` is well formed, and
its entry is keyed by the one byte `a`, not by the lowercased name. -/
theorem C1_giant_name_counterexample :
    well_formed [(List.replicate 4294967297 65, str "x")]
      ∧ parse_headers_to_hv (some (header_block [10] [(List.replicate 4294967297 65, str "x")]))
        = some [(str "a", str "x")]
      ∧ (List.replicate 4294967297 65).map lower_byte ≠ str "a" := by
  have hmem : ∀ c, c ≠ 65 → c ∉ List.replicate 4294967297 65 := by
    intro c hc hm
    exact hc (List.eq_of_mem_replicate hm)
  have hlen : (List.replicate 4294967297 65).length = 4294967297 := List.length_replicate _ _
  have hlow : (List.replicate 4294967297 65).map lower_byte = List.replicate 4294967297 97 := by
    rw [List.map_replicate]
    rfl
  refine ⟨⟨?_, ?_⟩, ?_, ?_⟩
  · intro l hl
    rw [List.mem_singleton] at hl
    subst hl
    refine ⟨?_, hmem 58 (by decide), hmem 10 (by decide), hmem 0 (by decide), by decide,
      by decide, by decide, by decide⟩
    intro hnil
    have := congrArg List.length hnil
    rw [hlen] at this
    exact absurd this (by decide)
  · exact List.nodup_singleton _
  · rw [parse_giant_name _ hlen (hmem 58 (by decide)) (hmem 0 (by decide)), hlow,
      List.take_replicate]
    rfl
  · intro h
    have := congrArg List.length h
    rw [List.length_map, hlen] at this
    exact absurd this (by decide)

/-- C1, amended: for every well-formed header block (lines `name: value\n`,
names non-empty without `':'` or `'\n'`, values without `'\n'`, not starting
with a space and not ending with `'\r'`, lowercased names pairwise distinct)
whose names are shorter than 2^31 bytes, `parse_headers_to_hv` returns the map
that holds exactly one entry per line, keyed by the byte-wise ASCII-lowercased
name and holding the line's value, and nothing else. The two inputs named by
the specification give exactly `a -> x, b -> y` and
`content-type -> text/plain, x-foo -> bar`. -/
theorem C1_parse_well_formed_block (lines : List (List Nat × List Nat))
    (h : well_formed lines) (hb : short_names lines) :
    parse_headers_to_hv (some (header_block [10] lines))
        = some (lines.map (fun l => (l.1.map lower_byte, l.2)))
      ∧ parse_headers_to_hv (some (str "A: x\nB: y\n"))
        = some [(str "a", str "x"), (str "b", str "y")]
      ∧ parse_headers_to_hv (some (str "Content-Type: text/plain\nX-Foo: bar\r\n"))
        = some [(str "content-type", str "text/plain"), (str "x-foo", str "bar")] := by
  refine ⟨?_, by decide, by decide⟩
  have := parse_header_block_tail lines h hb [] (by simp)
  rwa [List.append_nil] at this

/-- C1, amended, at the block `A: x\nB: y\n`. -/
theorem C1_parse_well_formed_block_witness :
    well_formed [(str "A", str "x"), (str "B", str "y")]
      ∧ short_names [(str "A", str "x"), (str "B", str "y")]
      ∧ header_block [10] [(str "A", str "x"), (str "B", str "y")] = str "A: x\nB: y\n"
      ∧ parse_headers_to_hv (some (header_block [10] [(str "A", str "x"), (str "B", str "y")]))
        = some ([(str "A", str "x"), (str "B", str "y")].map
            (fun l => (l.1.map lower_byte, l.2))) :=
  have hwf : well_formed [(str "A", str "x"), (str "B", str "y")] := by
    unfold well_formed well_formed_line
    decide
  have hsh : short_names [(str "A", str "x"), (str "B", str "y")] := by
    unfold short_names
    decide
  ⟨hwf, hsh, by decide, (C1_parse_well_formed_block _ hwf hsh).1⟩

/-- C2, as stated, fails: on `A:  x` (two spaces) the stored value is `x`, not
one space followed by `x`. -/
theorem C2_two_spaces_counterexample :
    parse_headers_to_hv (some (str "A:  x")) = some [(str "a", str "x")]
      ∧ parse_headers_to_hv (some (str "A:  x")) ≠ some [(str "a", str " x")] := by
  constructor <;> decide

/-- C2, amended: every leading space after the `':'` is consumed. For every
header line, with or without its `'\n'`, whose name is shorter than 2^31 bytes
and whose text after the `':'` is any number `k` of spaces followed by a value
`v` that does not start with a space (and has no `'\n'` and no final `'\r'`),
the stored value is `v`. -/
theorem C2_leading_spaces_all_skipped (name v : List Nat) (k : Nat)
    (hn58 : 58 ∉ name) (hn0 : 0 ∉ name) (hnlen : name.length < 2 ^ 31)
    (hv10 : 10 ∉ v) (hv0 : 0 ∉ v)
    (hv32 : v.head? ≠ some 32) (hv13 : v.getLast? ≠ some 13) :
    parse_headers_to_hv (some (name ++ 58 :: (List.replicate k 32 ++ v)))
        = some [(name.map lower_byte, v)]
      ∧ parse_headers_to_hv (some (name ++ 58 :: (List.replicate k 32 ++ v) ++ [10]))
        = some [(name.map lower_byte, v)] := by
  have hb10 : 10 ∉ List.replicate k 32 ++ v := by
    simp only [List.mem_append, List.mem_replicate, not_or]
    exact ⟨fun h => absurd h.2 (by decide), hv10⟩
  have hb0 : 0 ∉ List.replicate k 32 ++ v := by
    simp only [List.mem_append, List.mem_replicate, not_or]
    exact ⟨fun h => absurd h.2 (by decide), hv0⟩
  have hval := header_value_spaces k v hv32 hv13 hv10
  have hklen : (name.map lower_byte).length < 2 ^ 31 := by
    rw [List.length_map]
    exact hnlen
  have hstore : hv_store newHV (name.map lower_byte) (to_I32 name.length)
      (header_value (List.replicate k 32 ++ v)) = [(name.map lower_byte, v)] := by
    have := hv_store_small newHV (name.map lower_byte) (header_value (List.replicate k 32 ++ v))
      hklen
    rw [List.length_map] at this
    rw [this, hval]
    rfl
  constructor
  · rw [parse_single_unterminated name _ hn58 hn0 hb10 hb0, hstore]
  · have hok : lines_ok [(name, List.replicate k 32 ++ v)] := by
      intro l hl
      rw [List.mem_singleton] at hl
      subst hl
      exact ⟨hn58, hn0, hb10, hb0⟩
    have := parse_block_raw [(name, List.replicate k 32 ++ v)] hok [] (by simp)
    simp only [block_raw, List.append_nil] at this
    have hp : name ++ 58 :: (List.replicate k 32 ++ v) ++ [10]
        = name ++ 58 :: (List.replicate k 32 ++ v ++ [10]) := by simp
    rw [hp, this]
    simp only [store_lines, List.foldl_cons, List.foldl_nil]
    exact congrArg some hstore

/-- C2, amended, at the line `A:  x`. -/
theorem C2_leading_spaces_all_skipped_witness :
    str "A" ++ 58 :: (List.replicate 2 32 ++ str "x") = str "A:  x"
      ∧ parse_headers_to_hv (some (str "A" ++ 58 :: (List.replicate 2 32 ++ str "x")))
        = some [((str "A").map lower_byte, str "x")] :=
  ⟨by decide,
    (C2_leading_spaces_all_skipped (str "A") (str "x") 2 (by decide) (by decide) (by decide)
      (by decide) (by decide) (by decide) (by decide)).1⟩

/-- C3: CRLF is tolerated. For every list of header lines (names without
`':'` or `'\n'`, values without `'\n'`) the block whose lines end with `\r\n`
and the block whose lines end with `\n` parse to the same map, no stored value
ends with `'\r'` or contains `'\n'`, and `A: x\r\n` gives exactly `a -> x`. -/
theorem C3_crlf_tolerated (lines : List (List Nat × List Nat))
    (h : ∀ l ∈ lines, plain_line l) :
    (∃ m, parse_headers_to_hv (some (header_block [13, 10] lines)) = some m
        ∧ parse_headers_to_hv (some (header_block [10] lines)) = some m
        ∧ ∀ e ∈ m, e.2.getLast? ≠ some 13 ∧ 10 ∉ e.2)
      ∧ parse_headers_to_hv (some (str "A: x\r\n")) = some [(str "a", str "x")] := by
  refine ⟨⟨store_lines [] (lines.map (fun l => (l.1, 32 :: l.2))), ?_, ?_, ?_⟩, by decide⟩
  · have := parse_block_raw _ (lines_ok_crlf lines h) [] (by simp)
    rw [List.append_nil] at this
    rw [header_block_crlf, this, store_lines_crlf]
  · have := parse_block_raw _ (lines_ok_lf lines h) [] (by simp)
    rw [List.append_nil] at this
    rw [header_block_lf, this]
  · intro e he
    rcases mem_store_lines _ _ e he with he | ⟨x, hx, hx2⟩
    · cases he
    · obtain ⟨_, _, hb10, _⟩ := lines_ok_lf lines h x hx
      rw [hx2]
      constructor
      · intro hlast
        exact (header_value_last _ 13 hlast).1 rfl
      · intro hmem
        exact hb10 (header_value_subset _ 10 hmem)

/-- C3, at the single line `A: x`. -/
theorem C3_crlf_tolerated_witness :
    header_block [13, 10] [(str "A", str "x")] = str "A: x\r\n"
      ∧ ∃ m, parse_headers_to_hv (some (header_block [13, 10] [(str "A", str "x")])) = some m
        ∧ parse_headers_to_hv (some (header_block [10] [(str "A", str "x")])) = some m
        ∧ ∀ e ∈ m, e.2.getLast? ≠ some 13 ∧ 10 ∉ e.2 :=
  ⟨by decide,
    (C3_crlf_tolerated [(str "A", str "x")] (by
      intro l hl
      rw [List.mem_singleton] at hl
      subst hl
      unfold plain_line
      decide)).1⟩

/-- C5, as stated, fails: a line without `':'` does not stop the parser when a
later line has one. `garbage\nA: x\n` gives one entry, keyed `garbage\na`, and
`A: x\n\nB: y\n` gives a second entry keyed `\nb`. -/
theorem C5_line_without_colon_counterexample :
    parse_headers_to_hv (some (str "garbage\nA: x\n")) = some [(str "garbage\na", str "x")]
      ∧ parse_headers_to_hv (some (str "garbage\nA: x\n")) ≠ some []
      ∧ parse_headers_to_hv (some (str "A: x\n\nB: y\n"))
        = some [(str "a", str "x"), (str "\nb", str "y")] := by
  refine ⟨by decide, by decide, by decide⟩

/-- C5, amended: the parser stops where the rest of the input has no `':'`.
For every block of header lines followed by any text without a `':'`, the
parser returns the same map as for the block alone: nothing is taken from the
text after the lines. When the block is well formed and its names are shorter
than 2^31 bytes, that map holds exactly the entries of the block's lines. -/
theorem C5_stops_when_no_colon_remains (lines : List (List Nat × List Nat))
    (tail : List Nat) (h : ∀ l ∈ lines, plain_line l) (ht : 58 ∉ tail) :
    (∃ m, parse_headers_to_hv (some (header_block [10] lines ++ tail)) = some m
        ∧ parse_headers_to_hv (some (header_block [10] lines)) = some m)
      ∧ (well_formed lines → short_names lines →
          parse_headers_to_hv (some (header_block [10] lines ++ tail))
            = some (lines.map (fun l => (l.1.map lower_byte, l.2)))) := by
  have h1 := parse_plain_block_tail lines h tail ht
  have h2 := parse_plain_block_tail lines h [] (by simp)
  rw [List.append_nil] at h2
  exact ⟨⟨_, h1, h2⟩, fun hwf hsh => parse_header_block_tail lines hwf hsh tail ht⟩

/-- C5, amended, at the input `A: x\ngarbage\n`. -/
theorem C5_stops_when_no_colon_remains_witness :
    header_block [10] [(str "A", str "x")] ++ str "garbage\n" = str "A: x\ngarbage\n"
      ∧ parse_headers_to_hv (some (header_block [10] [(str "A", str "x")] ++ str "garbage\n"))
        = some ([(str "A", str "x")].map (fun l => (l.1.map lower_byte, l.2))) :=
  ⟨by decide,
    (C5_stops_when_no_colon_remains [(str "A", str "x")] (str "garbage\n")
      (by
        unfold plain_line
        decide)
      (by decide)).2
      (by
        unfold well_formed well_formed_line
        decide)
      (by
        unfold short_names
        decide)⟩

/-! ## Helper lemmas: dispatch and lifecycle -/

theorem strlen_of_no_nul (e : List Nat) (h : 0 ∉ e) : strlen e = e.length := by
  have := strlen_append e [] h
  simpa [strlen] using this

theorem cstr_of_no_nul (e : List Nat) (h : 0 ∉ e) : cstr e = e := by
  rw [cstr, strlen_of_no_nul e h, List.take_length]

theorem status_500_eq (e : List Nat) (h0 : 0 ∉ e) (hlen : e.length + 32 < 2 ^ 64) :
    status_500 e = str "STATUS:500:" ++ e := by
  have hpre : (str "STATUS:500:").length = 11 := by decide
  rw [status_500, cstr_of_no_nul e h0, size_add, Nat.mod_eq_of_lt hlen, snprintf]
  apply List.take_of_length_le
  rw [List.length_append, hpre]
  omega

theorem eval_and_check_state (code : List Nat) (errsv : ErrSV) (label : List Nat) (b : Bridge) :
    (eval_and_check code errsv label b).2.1 = b := by
  unfold eval_and_check
  split <;> rfl

theorem shutdown_eq (b : Bridge) : (perl_bridge_shutdown b).1 = ⟨none, none, none⟩ := by
  obtain ⟨m, h, q⟩ := b
  cases m <;> cases h <;> cases q <;> rfl

theorem run_keeps_absent (c : Call) (hc : c.is_init_call = false) (b : Bridge)
    (h : b.my_perl = none) : (c.run b).my_perl = none := by
  cases c with
  | init u a r => simp [Call.is_init_call] at hc
  | shutdown => exact congrArg Bridge.my_perl (shutdown_eq b)
  | set_handler sv => exact h
  | set_cannoli_path sv => exact h
  | add_inc sv e => simp [Call.run, perl_bridge_add_inc, h]
  | use sv e => simp [Call.run, perl_bridge_use, h]
  | do_file sv e => simp [Call.run, perl_bridge_do, h]
  | load_cannoli sv e => simp [Call.run, perl_bridge_load_cannoli, h]

theorem run_calls_keeps_absent (cs : List Call) (hcs : ∀ c ∈ cs, c.is_init_call = false)
    (b : Bridge) (h : b.my_perl = none) : (run_calls cs b).my_perl = none := by
  induction cs generalizing b with
  | nil => exact h
  | cons c cs ih =>
    have hstep : run_calls (c :: cs) b = run_calls cs (c.run b) := rfl
    rw [hstep]
    exact ih (fun x hx => hcs x (List.mem_cons_of_mem _ hx)) _
      (run_keeps_absent c (hcs c (List.mem_cons_self _ _)) b h)

/-! ## Dispatch and lifecycle: claims C6 to C10 -/

/-- C6, as stated, fails for an exception object whose overloaded truth value
is false: the handler raised it (its text is `real error`), `SvTRUE(ERRSV)`
answers false, so `_build_response` is called and its result `built` is
returned instead of `STATUS:500:real error`. -/
theorem C6_false_exception_object_counterexample :
    (perl_bridge_call_handler (some ⟨some (str "main::handler")⟩)
        ⟨none, none, none, none, none, none, none, none⟩
        ⟨⟨false, []⟩, 1, some (str "obj")⟩ ⟨⟨false, str "real error"⟩, 1, none⟩
        ⟨⟨false, []⟩, 1, some (str "built")⟩ ⟨some 1, none, none⟩).map
      (fun res => (res.1, res.2.2.any Event.is_build_response))
      = some (str "built", true) := by
  decide

/-- C6, amended: in `perl_bridge_call_handler`, when the context object was
built and `SvTRUE(ERRSV)` holds after the handler call, or else after the
`_build_response` call, with an error text `e` that has no NUL (and fits the
address space together with its buffer, `len + 32 < 2^64`), the response is
exactly `STATUS:500:` followed by all of `e`: the text with its NUL fits the
buffer of `len + 32` bytes. `_build_response` is not called when
`SvTRUE(ERRSV)` holds after the handler call. -/
theorem C6_error_reply_is_whole (sub_name_sv : Option StradaValue) (r : Request)
    (new_r handler_r build_r : CallResult) (b : Bridge) (e : List Nat)
    (hrun : b.my_perl ≠ none) (hsub : sv_to_cstr sub_name_sv ≠ none)
    (hnew : SvTRUE new_r.errsv = false ∧ 1 ≤ new_r.count)
    (he0 : 0 ∉ e) (hlen : e.length + 32 < 2 ^ 64)
    (herr : (SvTRUE handler_r.errsv = true ∧ SvPV handler_r.errsv = e)
      ∨ (SvTRUE handler_r.errsv = false ∧ SvTRUE build_r.errsv = true
        ∧ SvPV build_r.errsv = e)) :
    (∃ evs, perl_bridge_call_handler sub_name_sv r new_r handler_r build_r b
          = some (str "STATUS:500:" ++ e, b, evs)
        ∧ (SvTRUE handler_r.errsv = true → ∀ ev ∈ evs, ev.is_build_response = false))
      ∧ (str "STATUS:500:" ++ e).length + 1 ≤ size_add e.length 32 := by
  have hpre : (str "STATUS:500:").length = 11 := by decide
  have hsize : (str "STATUS:500:" ++ e).length + 1 ≤ size_add e.length 32 := by
    rw [size_add, Nat.mod_eq_of_lt hlen, List.length_append, hpre]
    omega
  refine ⟨?_, hsize⟩
  obtain ⟨i, hi⟩ := Option.ne_none_iff_exists'.1 hrun
  obtain ⟨name, hname⟩ := Option.ne_none_iff_exists'.1 hsub
  obtain ⟨hv, hhv⟩ := parse_headers_total (sv_to_cstr r.headers)
  have hcount : ¬ new_r.count < 1 := by omega
  rcases herr with ⟨h1, he⟩ | ⟨h1, h2, he⟩
  · have hcall : perl_bridge_call_handler sub_name_sv r new_r handler_r build_r b
        = some (status_500 (SvPV handler_r.errsv), b,
            [Event.call_method (str "new") (new_args r hv),
              Event.call_pv (cstr name) [PerlArg.sv new_r.ret],
              Event.stderr (str "perl_bridge: handler error: " ++ cstr (SvPV handler_r.errsv)
                ++ str "\n")]) := by
      simp only [perl_bridge_call_handler, hi, hname, hhv, hnew.1, hcount, h1, or_self,
        if_false, if_true, Bool.false_eq_true]
    rw [hcall, he, status_500_eq _ he0 hlen]
    refine ⟨_, rfl, ?_⟩
    intro _ ev hev
    simp only [List.mem_cons, List.mem_singleton, List.not_mem_nil, or_false] at hev
    rcases hev with rfl | rfl | rfl
    · simp only [Event.is_build_response]
      decide
    · rfl
    · rfl
  · have hcall : perl_bridge_call_handler sub_name_sv r new_r handler_r build_r b
        = some (status_500 (SvPV build_r.errsv), b,
            [Event.call_method (str "new") (new_args r hv),
              Event.call_pv (cstr name) [PerlArg.sv new_r.ret],
              Event.call_method (str "_build_response") [PerlArg.sv new_r.ret]]) := by
      simp only [perl_bridge_call_handler, hi, hname, hhv, hnew.1, hcount, h1, h2, or_self,
        if_false, if_true, Bool.false_eq_true]
    rw [hcall, he, status_500_eq _ he0 hlen]
    refine ⟨_, rfl, ?_⟩
    intro h
    rw [h1] at h
    exact absurd h (by decide)

/-- C6, amended, with a handler that raises `oops at line 3`. -/
theorem C6_error_reply_is_whole_witness :
    ∃ evs, perl_bridge_call_handler (some ⟨some (str "main::handler")⟩)
          ⟨none, none, none, none, none, none, none, none⟩
          ⟨⟨false, []⟩, 1, some (str "obj")⟩ ⟨⟨true, str "oops at line 3"⟩, 1, none⟩
          ⟨⟨false, []⟩, 0, none⟩ ⟨some 1, none, none⟩
        = some (str "STATUS:500:" ++ str "oops at line 3", ⟨some 1, none, none⟩, evs)
      ∧ (SvTRUE ⟨true, str "oops at line 3"⟩ = true → ∀ ev ∈ evs, ev.is_build_response = false) :=
  (C6_error_reply_is_whole (some ⟨some (str "main::handler")⟩)
    ⟨none, none, none, none, none, none, none, none⟩
    ⟨⟨false, []⟩, 1, some (str "obj")⟩ ⟨⟨true, str "oops at line 3"⟩, 1, none⟩
    ⟨⟨false, []⟩, 0, none⟩
    ⟨some 1, none, none⟩ (str "oops at line 3")
    (by decide) (by decide) (by decide) (by decide) (by decide) (Or.inl (by decide))).1

/-- C7: for every request, `perl_bridge_call_handler` returns the empty string
whenever the interpreter is not running or no handler name is supplied (the
handle is `NULL`, or the host projects it to `NULL`); nothing is invoked in the
interpreter, no context object is built and the globals are unchanged. -/
theorem C7_abstains_without_handler (sub_name_sv : Option StradaValue) (r : Request)
    (new_r handler_r build_r : CallResult) (b : Bridge)
    (h : b.my_perl = none ∨ sub_name_sv = none ∨ sv_to_cstr sub_name_sv = none) :
    perl_bridge_call_handler sub_name_sv r new_r handler_r build_r b = some ([], b, []) := by
  have hs : b.my_perl = none ∨ sv_to_cstr sub_name_sv = none := by
    rcases h with h | h | h
    · exact Or.inl h
    · exact Or.inr (by rw [h]; rfl)
    · exact Or.inr h
  unfold perl_bridge_call_handler
  rcases hs with h | h
  · rw [h]
    rfl
  · rw [h]
    cases b.my_perl <;> rfl

/-- C7, with a `NULL` handler handle on a running interpreter. -/
theorem C7_abstains_without_handler_witness :
    perl_bridge_call_handler none ⟨none, none, none, none, none, none, none, none⟩
        ⟨⟨false, []⟩, 1, none⟩ ⟨⟨false, []⟩, 1, none⟩ ⟨⟨false, []⟩, 1, none⟩
        ⟨some 1, none, none⟩
      = some ([], ⟨some 1, none, none⟩, []) :=
  C7_abstains_without_handler none ⟨none, none, none, none, none, none, none, none⟩
    ⟨⟨false, []⟩, 1, none⟩ ⟨⟨false, []⟩, 1, none⟩ ⟨⟨false, []⟩, 1, none⟩
    ⟨some 1, none, none⟩ (Or.inr (Or.inl rfl))

/-- C8: `perl_bridge_init` is idempotent. From any state, when a first init
returns 1, a second init returns 1 as well, whatever libperl would answer; it
calls nothing in libperl (no second interpreter is created) and leaves the
globals as they are: the interpreter, the handler name and the module path.
`perl_bridge_is_init` is non-zero after each of the two calls, and the first
init does not touch the handler name or the module path either. -/
theorem C8_init_idempotent (b : Bridge) (u1 u2 : Option (List Nat)) (a1 a2 : Option Nat)
    (rc1 rc2 : Int) (h : (perl_bridge_init u1 a1 rc1 b).1 = 1) :
    perl_bridge_init u2 a2 rc2 (perl_bridge_init u1 a1 rc1 b).2.1
        = (1, (perl_bridge_init u1 a1 rc1 b).2.1, [])
      ∧ perl_bridge_is_init (perl_bridge_init u1 a1 rc1 b).2.1 ≠ 0
      ∧ perl_bridge_is_init
          (perl_bridge_init u2 a2 rc2 (perl_bridge_init u1 a1 rc1 b).2.1).2.1 ≠ 0
      ∧ (perl_bridge_init u1 a1 rc1 b).2.1.handler_sub = b.handler_sub
      ∧ (perl_bridge_init u1 a1 rc1 b).2.1.cannoli_pm_path = b.cannoli_pm_path := by
  have key : ∃ i, (perl_bridge_init u1 a1 rc1 b).2.1.my_perl = some i
      ∧ (perl_bridge_init u1 a1 rc1 b).2.1.handler_sub = b.handler_sub
      ∧ (perl_bridge_init u1 a1 rc1 b).2.1.cannoli_pm_path = b.cannoli_pm_path := by
    unfold perl_bridge_init at h ⊢
    cases hb : b.my_perl with
    | some i => exact ⟨i, by simp [hb], by simp, by simp⟩
    | none =>
      rw [hb] at h
      cases a1 with
      | none => simp at h
      | some i =>
        by_cases hrc : rc1 = 0
        · exact ⟨i, by simp [hrc], by simp [hrc], by simp [hrc]⟩
        · simp [hrc] at h
  obtain ⟨i, hi, hh, hp⟩ := key
  have hsecond : perl_bridge_init u2 a2 rc2 (perl_bridge_init u1 a1 rc1 b).2.1
      = (1, (perl_bridge_init u1 a1 rc1 b).2.1, []) := by
    generalize (perl_bridge_init u1 a1 rc1 b).2.1 = b1 at hi
    simp [perl_bridge_init, hi]
  refine ⟨hsecond, ?_, ?_, hh, hp⟩
  · simp [perl_bridge_is_init, hi]
  · rw [hsecond]
    simp [perl_bridge_is_init, hi]

/-- C8, from the state at process start. -/
theorem C8_init_idempotent_witness :
    perl_bridge_init none none 1 (perl_bridge_init none (some 7) 0 Bridge.initial).2.1
        = (1, (perl_bridge_init none (some 7) 0 Bridge.initial).2.1, [])
      ∧ perl_bridge_is_init (perl_bridge_init none (some 7) 0 Bridge.initial).2.1 ≠ 0 :=
  have h := C8_init_idempotent Bridge.initial none none (some 7) none 0 1 (by decide)
  ⟨h.1, h.2.1⟩

/-- C9, as stated, fails for `perl_bridge_eval`: without an interpreter it
returns the empty string, not an explanatory one. -/
theorem C9_eval_uninitialized_counterexample :
    (perl_bridge_eval (some (str "1 + 1")) ⟨false, []⟩ (some (str "2")) Bridge.initial).1
      = [] := by
  decide

/-- C9, amended: when the interpreter is not initialized,
`perl_bridge_get_error` returns the non-empty string `Perl not initialized`,
while `perl_bridge_eval` returns the empty string for every code string and
evaluates nothing. -/
theorem C9_uninitialized_replies (b : Bridge) (h : b.my_perl = none) :
    (∀ errsv, perl_bridge_get_error errsv b = str "Perl not initialized"
        ∧ perl_bridge_get_error errsv b ≠ [])
      ∧ ∀ code errsv result, perl_bridge_eval code errsv result b = ([], []) := by
  constructor
  · intro errsv
    have hg : perl_bridge_get_error errsv b = str "Perl not initialized" := by
      simp only [perl_bridge_get_error, h]
      decide
    rw [hg]
    exact ⟨rfl, by decide⟩
  · intro code errsv result
    simp only [perl_bridge_eval, h]
    rfl

/-- C9, amended, at process start. -/
theorem C9_uninitialized_replies_witness :
    perl_bridge_get_error ⟨true, str "boom"⟩ Bridge.initial = str "Perl not initialized"
      ∧ perl_bridge_eval (some (str "1 + 1")) ⟨false, []⟩ (some (str "2")) Bridge.initial
        = ([], []) :=
  have h := C9_uninitialized_replies Bridge.initial rfl
  ⟨(h.1 ⟨true, str "boom"⟩).1, h.2 _ _ _⟩

/-- C10: what the code does around a shutdown. After `perl_bridge_shutdown`
the interpreter is absent (`perl_bridge_is_init` is 0) and stays absent through
every sequence of lifecycle calls that holds no `perl_bridge_init`; the
shutdown of a running interpreter has run `PERL_SYS_TERM`. A
`perl_bridge_init` that follows is not refused: whatever libperl answers, it
does not return at the guard `if (my_perl)` and starts with `PERL_SYS_INIT3`
again. -/
theorem C10_init_after_shutdown_not_refused (b : Bridge) (cs : List Call)
    (hcs : ∀ c ∈ cs, c.is_init_call = false) :
    perl_bridge_is_init (run_calls cs (perl_bridge_shutdown b).1) = 0
      ∧ (b.my_perl ≠ none → Event.sys_term ∈ (perl_bridge_shutdown b).2)
      ∧ ∀ u a rc, (perl_bridge_init u a rc
          (run_calls cs (perl_bridge_shutdown b).1)).2.2.head? = some Event.sys_init3 := by
  have h := run_calls_keeps_absent cs hcs (perl_bridge_shutdown b).1
    (congrArg Bridge.my_perl (shutdown_eq b))
  refine ⟨by simp [perl_bridge_is_init, h], ?_, ?_⟩
  · intro hb
    obtain ⟨i, hi⟩ := Option.ne_none_iff_exists'.1 hb
    simp [perl_bridge_shutdown, hi]
  · intro u a rc
    unfold perl_bridge_init
    rw [h]
    cases a with
    | none => rfl
    | some i =>
      by_cases hrc : rc = 0
      · simp [hrc]
      · simp [hrc]

/-- C10, at `init; shutdown; init` with a handler registration and a load
between the shutdown and the second init. -/
theorem C10_init_after_shutdown_not_refused_witness :
    perl_bridge_is_init (run_calls [.set_handler (some ⟨some (str "h")⟩),
        .load_cannoli none ⟨false, []⟩]
        (perl_bridge_shutdown (run_calls [.init none (some 1) 0] Bridge.initial)).1) = 0
      ∧ (perl_bridge_init none (some 2) 0
          (run_calls [.set_handler (some ⟨some (str "h")⟩), .load_cannoli none ⟨false, []⟩]
            (perl_bridge_shutdown (run_calls [.init none (some 1) 0] Bridge.initial)).1)).2.2.head?
        = some Event.sys_init3 :=
  have h := C10_init_after_shutdown_not_refused (run_calls [.init none (some 1) 0] Bridge.initial)
    [.set_handler (some ⟨some (str "h")⟩), .load_cannoli none ⟨false, []⟩] (by decide)
  ⟨h.1, h.2.2 none (some 2) 0⟩

/-! ## Helper lemmas: positions inside one iteration -/

theorem byteAt_strlen (p : List Nat) : byteAt p (strlen p) = 0 := by
  induction p with
  | nil => rfl
  | cons b bs ih =>
    unfold strlen
    split
    · rename_i h
      rw [byteAt_cons_zero, h]
    · simpa [byteAt] using ih

theorem strlen_le_length (p : List Nat) : strlen p ≤ p.length := by
  induction p with
  | nil => simp [strlen]
  | cons b bs ih =>
    unfold strlen
    split
    · omega
    · simp only [List.length_cons]
      omega

theorem byteAt_drop (p : List Nat) (k i : Nat) : byteAt (p.drop k) i = byteAt p (k + i) := by
  simp [byteAt, List.getD_eq_getElem?_getD, List.getElem?_drop]

theorem strchr_lt_strlen (p : List Nat) (c i : Nat) (hc : c ≠ 0) (h : strchr p c = some i) :
    i < strlen p ∧ byteAt p i = c := by
  induction p generalizing i with
  | nil => simp [strchr, hc] at h
  | cons b bs ih =>
    unfold strchr at h
    by_cases hb : b = c
    · simp only [hb, if_true, Option.some.injEq] at h
      subst h
      subst hb
      simp [strlen, hc, byteAt]
    · by_cases hb0 : b = 0
      · subst hb0
        simp [Ne.symm hc] at h
      · simp only [hb, hb0, if_false, Option.map_eq_some'] at h
        obtain ⟨j, hj, rfl⟩ := h
        obtain ⟨h1, h2⟩ := ih j hj
        constructor
        · simp only [strlen, hb0, if_false]
          omega
        · simpa [byteAt] using h2

theorem strlen_drop (p : List Nat) (k : Nat) (hk : k ≤ strlen p) :
    strlen (p.drop k) = strlen p - k := by
  induction p generalizing k with
  | nil => simp [strlen]
  | cons b bs ih =>
    cases k with
    | zero => simp
    | succ k =>
      by_cases hb0 : b = 0
      · simp [strlen, hb0] at hk
      · have hs : strlen (b :: bs) = strlen bs + 1 := by simp [strlen, hb0]
        rw [hs] at hk ⊢
        rw [List.drop_succ_cons, ih k (by omega)]
        omega

theorem not_mem_take_strlen (p : List Nat) (k : Nat) (hk : k ≤ strlen p) : 0 ∉ p.take k := by
  induction p generalizing k with
  | nil => simp
  | cons b bs ih =>
    cases k with
    | zero => simp
    | succ k =>
      unfold strlen at hk
      by_cases hb0 : b = 0
      · simp [hb0] at hk
      · simp only [hb0, if_false] at hk
        simp only [List.take_succ_cons, List.mem_cons, not_or]
        exact ⟨fun h => hb0 h.symm, ih k (by omega)⟩

theorem count_spaces_le_of (q : List Nat) (j : Nat) (h : byteAt q j ≠ 32) :
    count_spaces q ≤ j := by
  induction q generalizing j with
  | nil => simp [count_spaces]
  | cons b bs ih =>
    unfold count_spaces
    split
    · rename_i hb
      cases j with
      | zero =>
        rw [byteAt_cons_zero] at h
        exact absurd hb h
      | succ j =>
        have hj : byteAt bs j ≠ 32 := by simpa [byteAt] using h
        have := ih j hj
        omega
    · omega

theorem find_eol_spec (p : List Nat) (colon : Nat) (hc : strchr p 58 = some colon) :
    colon < find_eol p colon ∧ find_eol p colon ≤ strlen p
      ∧ ((byteAt p (find_eol p colon) = 10 ∧ find_eol p colon < strlen p)
        ∨ find_eol p colon = strlen p) := by
  obtain ⟨hlt, hbyte⟩ := strchr_lt_strlen p 58 colon (by decide) hc
  unfold find_eol
  cases he : strchr (p.drop colon) 10 with
  | none => exact ⟨hlt, Nat.le_refl _, Or.inr rfl⟩
  | some e =>
    obtain ⟨h1, h2⟩ := strchr_lt_strlen (p.drop colon) 10 e (by decide) he
    rw [strlen_drop p colon (Nat.le_of_lt hlt)] at h1
    rw [byteAt_drop] at h2
    have he0 : e ≠ 0 := by
      intro h0
      rw [h0, Nat.add_zero, hbyte] at h2
      exact absurd h2 (by decide)
    simp only []
    exact ⟨by omega, by omega, Or.inl ⟨h2, by omega⟩⟩

theorem byteAt_find_eol (p : List Nat) (colon : Nat) (hc : strchr p 58 = some colon) :
    byteAt p (find_eol p colon) = 10 ∨ byteAt p (find_eol p colon) = 0 := by
  rcases (find_eol_spec p colon hc).2.2 with h | h
  · exact Or.inl h.1
  · rw [h]
    exact Or.inr (byteAt_strlen p)

theorem skip_spaces_le_eol (p : List Nat) (colon : Nat) (hc : strchr p 58 = some colon) :
    colon < skip_spaces p (colon + 1) ∧ skip_spaces p (colon + 1) ≤ find_eol p colon := by
  obtain ⟨h1, _, _⟩ := find_eol_spec p colon hc
  have hne : byteAt (p.drop (colon + 1)) (find_eol p colon - (colon + 1)) ≠ 32 := by
    rw [byteAt_drop]
    have : colon + 1 + (find_eol p colon - (colon + 1)) = find_eol p colon := by omega
    rw [this]
    rcases byteAt_find_eol p colon hc with h | h <;> rw [h] <;> decide
  have := count_spaces_le_of _ _ hne
  unfold skip_spaces
  omega

/-- The facts about the positions that one iteration computes. -/
theorem parse_iter_bounds (p : List Nat) (it : Iter) (h : parse_iter p = some it) :
    it.colon < it.val_start ∧ it.val_start ≤ it.eol ∧ it.eol ≤ strlen p
      ∧ it.val_len + it.val_start = it.eol
      ∧ it.name = (p.take it.colon).map lower_byte ∧ it.name.length = it.colon
      ∧ it.value.length ≤ it.val_len
      ∧ it.value = (p.drop it.val_start).take it.value.length := by
  obtain ⟨colon, hc, rfl⟩ := parse_iter_some p it h
  obtain ⟨hs1, hs2⟩ := skip_spaces_le_eol p colon hc
  obtain ⟨_, he2, _⟩ := find_eol_spec p colon hc
  have hlen := strlen_le_length p
  have hsub : size_sub (find_eol p colon) (skip_spaces p (colon + 1))
      = find_eol p colon - skip_spaces p (colon + 1) := by
    unfold size_sub
    rw [if_pos hs2]
  have hcolon : colon < strlen p := (strchr_lt_strlen p 58 colon (by decide) hc).1
  have htrim := trim_crlf_le (p.drop (skip_spaces p (colon + 1)))
    (find_eol p colon - skip_spaces p (colon + 1))
  have hvlen : ((p.drop (skip_spaces p (colon + 1))).take
      (trim_crlf (p.drop (skip_spaces p (colon + 1)))
        (find_eol p colon - skip_spaces p (colon + 1)))).length
      = trim_crlf (p.drop (skip_spaces p (colon + 1)))
        (find_eol p colon - skip_spaces p (colon + 1)) := by
    rw [List.length_take, List.length_drop]
    omega
  simp only [parse_line, hsub]
  refine ⟨hs1, hs2, he2, by omega, trivial, ?_, ?_, ?_⟩
  · rw [List.length_map, List.length_take]
    omega
  · rw [hvlen]
    exact htrim
  · rw [hvlen]

/-! ## Helper lemmas: the iterations of the loop -/

theorem parse_iter_progress (p : List Nat) (it : Iter) (h : parse_iter p = some it)
    (hp : byteAt p 0 ≠ 0) :
    (byteAt p it.eol = 10 ∧ it.eol < strlen p ∧ it.next = it.eol + 1)
      ∨ (it.eol = strlen p ∧ it.next = it.eol ∧ 0 < it.next
        ∧ byteAt (p.drop it.next) 0 = 0) := by
  have hpos := parse_iter_next_pos p it h hp
  obtain ⟨colon, hc, rfl⟩ := parse_iter_some p it h
  have hnext : (parse_line p colon).next
      = if byteAt p (find_eol p colon) ≠ 0 then find_eol p colon + 1 else find_eol p colon := rfl
  have heol : (parse_line p colon).eol = find_eol p colon := rfl
  rw [heol]
  rcases (find_eol_spec p colon hc).2.2 with ⟨h10, hlt⟩ | hend
  · left
    refine ⟨h10, hlt, ?_⟩
    rw [hnext, if_pos (by rw [h10]; decide)]
  · right
    have hz : byteAt p (find_eol p colon) = 0 := by
      rw [hend]
      exact byteAt_strlen p
    have hn : (parse_line p colon).next = find_eol p colon := by
      rw [hnext, if_neg (not_not.2 hz)]
    refine ⟨hend, hn, hpos, ?_⟩
    rw [hn, byteAt_drop, Nat.add_zero, hz]

theorem parse_trace_total (fuel : Nat) (p : List Nat) (h : p.length < fuel) :
    ∃ tr, parse_trace fuel p = some tr := by
  induction fuel generalizing p with
  | zero => omega
  | succ f ih =>
    rw [parse_trace]
    split
    · exact ⟨[], rfl⟩
    · rename_i hp
      split
      · exact ⟨_, rfl⟩
      · rename_i it hit
        have := length_drop_next p it hit hp
        obtain ⟨tr, htr⟩ := ih (p.drop it.next) (by omega)
        exact ⟨_, by rw [htr]; rfl⟩

theorem parse_loop_eq_replay (fuel : Nat) (p : List Nat) (hv : HV) :
    parse_loop fuel p hv = (parse_trace fuel p).map (replay_trace hv) := by
  induction fuel generalizing p hv with
  | zero => rfl
  | succ f ih =>
    rw [parse_loop, parse_trace]
    split
    · rfl
    · split
      · rfl
      · rename_i it hit
        rw [ih]
        cases parse_trace f (p.drop it.next) with
        | none => rfl
        | some tr => rfl

theorem parse_trace_inv (Q : List Nat → Prop)
    (hQ : ∀ p it, Q p → byteAt p 0 ≠ 0 → parse_iter p = some it → Q (p.drop it.next))
    (fuel : Nat) (p : List Nat) (tr : List (List Nat × Option Iter)) (hq : Q p)
    (h : parse_trace fuel p = some tr) :
    ∀ e ∈ tr, Q e.1 ∧ byteAt e.1 0 ≠ 0 ∧ e.2 = parse_iter e.1 := by
  induction fuel generalizing p tr with
  | zero => simp [parse_trace] at h
  | succ f ih =>
    rw [parse_trace] at h
    split at h
    · cases h
      intro e he
      cases he
    · rename_i hp
      split at h
      · rename_i hnone
        cases h
        intro e he
        rw [List.mem_singleton] at he
        subst he
        exact ⟨hq, hp, hnone.symm⟩
      · rename_i it hit
        cases hrest : parse_trace f (p.drop it.next) with
        | none => simp [hrest] at h
        | some tr' =>
          rw [hrest] at h
          cases h
          intro e he
          rcases List.mem_cons.1 he with he | he
          · subst he
            exact ⟨hq, hp, hit.symm⟩
          · exact ih _ _ (hQ p it hq hp hit) hrest e he

theorem cstr_cons (b : Nat) (bs : List Nat) (hb : b ≠ 0) : cstr (b :: bs) = b :: cstr bs := by
  simp [cstr, strlen, hb]

theorem count_nl_drop (p : List Nat) (i : Nat) (hi : i < strlen p) (h : byteAt p i = 10) :
    (cstr (p.drop (i + 1))).count 10 + 1 ≤ (cstr p).count 10 := by
  induction p generalizing i with
  | nil => simp [strlen] at hi
  | cons b bs ih =>
    by_cases hb0 : b = 0
    · simp [strlen, hb0] at hi
    · have hs : strlen (b :: bs) = strlen bs + 1 := by simp [strlen, hb0]
      rw [hs] at hi
      rw [cstr_cons b bs hb0, List.drop_succ_cons]
      cases i with
      | zero =>
        rw [byteAt_cons_zero] at h
        subst h
        simp
      | succ j =>
        have hj : byteAt bs j = 10 := by simpa [byteAt] using h
        have := ih j (by omega) hj
        have hle : (cstr bs).count 10 ≤ (b :: cstr bs).count 10 := by
          rw [List.count_cons]
          omega
        omega

theorem parse_trace_length (fuel : Nat) (p : List Nat) (tr : List (List Nat × Option Iter))
    (h : parse_trace fuel p = some tr) : tr.length ≤ (cstr p).count 10 + 1 := by
  induction fuel generalizing p tr with
  | zero => simp [parse_trace] at h
  | succ f ih =>
    rw [parse_trace] at h
    split at h
    · cases h
      simp
    · rename_i hp
      split at h
      · cases h
        simp
      · rename_i it hit
        cases hrest : parse_trace f (p.drop it.next) with
        | none => simp [hrest] at h
        | some tr' =>
          rw [hrest] at h
          cases h
          rcases parse_iter_progress p it hit hp with ⟨h10, hlt, hn⟩ | ⟨_, _, _, hz⟩
          · have h1 := ih _ _ hrest
            rw [hn] at h1
            have h2 := count_nl_drop p it.eol hlt h10
            simp only [List.length_cons]
            omega
          · have htr : tr' = [] := by
              cases f with
              | zero => simp [parse_trace] at hrest
              | succ g =>
                rw [parse_trace, if_pos hz] at hrest
                exact (Option.some.inj hrest).symm
            rw [htr]
            simp

theorem parse_headers_eq_replay (s : List Nat) :
    parse_headers_to_hv (some s) = (parse_trace (s.length + 1) s).map (replay_trace newHV) := by
  unfold parse_headers_to_hv
  simp only []
  split
  · rename_i hz
    rw [parse_trace, if_pos hz]
    rfl
  · exact parse_loop_eq_replay _ _ _

theorem parse_trace_fuel (fuel : Nat) (p : List Nat) (tr : List (List Nat × Option Iter))
    (h : parse_trace fuel p = some tr) (g : Nat) (hg : tr.length < g) :
    parse_trace g p = some tr := by
  induction fuel generalizing p tr g with
  | zero => simp [parse_trace] at h
  | succ f ih =>
    cases g with
    | zero => omega
    | succ g =>
      rw [parse_trace] at h ⊢
      split at h
      · rename_i hz
        rw [if_pos hz]
        exact h
      · rename_i hp
        rw [if_neg hp]
        split at h
        · exact h
        · rename_i it hit
          cases hrest : parse_trace f (p.drop it.next) with
          | none => simp [hrest] at h
          | some tr' =>
            rw [hrest] at h
            cases h
            simp only [List.length_cons] at hg
            rw [ih _ _ hrest g (by omega)]
            rfl

theorem cursor_inv_step (s p : List Nat) (it : Iter) (hq : ∃ pre, s = pre ++ p ∧ 0 ∉ pre)
    (hp : byteAt p 0 ≠ 0) (hit : parse_iter p = some it) :
    ∃ pre, s = pre ++ p.drop it.next ∧ 0 ∉ pre := by
  obtain ⟨pre, rfl, h0⟩ := hq
  have hle : it.next ≤ strlen p := by
    rcases parse_iter_progress p it hit hp with ⟨_, hlt, hn⟩ | ⟨he, hn, _, _⟩ <;> omega
  refine ⟨pre ++ p.take it.next, by rw [List.append_assoc, List.take_append_drop], ?_⟩
  intro hm
  rcases List.mem_append.1 hm with hm | hm
  · exact h0 hm
  · exact not_mem_take_strlen p it.next hle hm

/-! ## The header parser: claims C11 and C12 -/

/-- C11: `parse_headers_to_hv` terminates on every input string (and on
`NULL`). Each iteration that does not break moves the cursor strictly forward:
either to the byte after the `'\n'` that ends the line, or onto the terminating
NUL, where the loop ends. The number of iterations entered (the one ending in
`break` included) is at most the number of `'\n'` bytes of the string plus one;
so the loop returns its map when it is allowed that many iterations. -/
theorem C11_terminates_within_newlines_plus_one (s : List Nat) :
    parse_headers_to_hv none = some newHV
      ∧ ∃ tr m, parse_trace (s.length + 1) s = some tr
        ∧ parse_headers_to_hv (some s) = some m ∧ m = replay_trace newHV tr
        ∧ tr.length ≤ (cstr s).count 10 + 1
        ∧ parse_loop ((cstr s).count 10 + 2) s newHV = some m
        ∧ ∀ e ∈ tr, ∀ it, e.2 = some it →
            ((byteAt e.1 it.eol = 10 ∧ it.next = it.eol + 1)
              ∨ (it.eol = strlen e.1 ∧ it.next = it.eol ∧ byteAt (e.1.drop it.next) 0 = 0))
            ∧ 0 < it.next ∧ (e.1.drop it.next).length < e.1.length := by
  refine ⟨rfl, ?_⟩
  obtain ⟨tr, htr⟩ := parse_trace_total (s.length + 1) s (Nat.lt_succ_self _)
  have hlen := parse_trace_length _ _ _ htr
  refine ⟨tr, replay_trace newHV tr, htr, ?_, rfl, hlen, ?_, ?_⟩
  · rw [parse_headers_eq_replay, htr]
    rfl
  · rw [parse_loop_eq_replay, parse_trace_fuel _ _ _ htr _ (by omega)]
    rfl
  · intro e he it heit
    obtain ⟨_, hp, hpi⟩ := parse_trace_inv (fun _ => True) (fun _ _ _ _ _ => trivial)
      _ s tr trivial htr e he
    have hit : parse_iter e.1 = some it := by rw [← hpi, heit]
    refine ⟨?_, parse_iter_next_pos _ _ hit hp, length_drop_next _ _ hit hp⟩
    rcases parse_iter_progress _ _ hit hp with ⟨h10, _, hn⟩ | ⟨he, hn, _, hz⟩
    · exact Or.inl ⟨h10, hn⟩
    · exact Or.inr ⟨he, hn, hz⟩

/-- C12: in every iteration of `parse_headers_to_hv` that reaches the stores
(the iterations of the trace, whose stores make up the returned map), on every
input `s`, with the cursor at offset `pre.length` of `s` (no NUL before
it): the positions, as offsets from the cursor, satisfy
`colon < val_start <= eol` and `eol` is at most the end of the string, so
skipping the spaces never steps past the line's `'\n'` or the terminating NUL;
`val_len = eol - val_start` does not wrap (`val_len + val_start = eol`), and
`name_len` is the offset `colon` itself, which cannot be negative. The name is
the slice of `s` of length `colon` at the cursor and the value a slice of at
most `val_len` bytes at `val_start`, both inside the string. -/
theorem C12_positions_ordered (s : List Nat) :
    ∃ tr, parse_trace (s.length + 1) s = some tr
      ∧ parse_headers_to_hv (some s) = some (replay_trace newHV tr)
      ∧ ∀ e ∈ tr, ∀ it, e.2 = some it →
          ∃ pre, s = pre ++ e.1 ∧ 0 ∉ pre
            ∧ it.colon < it.val_start ∧ it.val_start ≤ it.eol
            ∧ pre.length + it.eol ≤ strlen s ∧ strlen s ≤ s.length
            ∧ it.val_len = size_sub it.eol it.val_start
            ∧ it.val_len + it.val_start = it.eol
            ∧ it.name = ((s.drop pre.length).take it.colon).map lower_byte
            ∧ it.name.length = it.colon
            ∧ it.value = (s.drop (pre.length + it.val_start)).take it.value.length
            ∧ it.value.length ≤ it.val_len
            ∧ pre.length + it.val_start + it.value.length ≤ strlen s := by
  obtain ⟨tr, htr⟩ := parse_trace_total (s.length + 1) s (Nat.lt_succ_self _)
  refine ⟨tr, htr, by rw [parse_headers_eq_replay, htr]; rfl, ?_⟩
  intro e he it heit
  obtain ⟨⟨pre, hs, h0⟩, _, hpi⟩ := parse_trace_inv (fun p => ∃ pre, s = pre ++ p ∧ 0 ∉ pre)
    (fun p it hq hp hit => cursor_inv_step s p it hq hp hit) _ s tr ⟨[], rfl, by simp⟩ htr e he
  have hit : parse_iter e.1 = some it := by rw [← hpi, heit]
  obtain ⟨b1, b2, b3, b4, b5, b6, b7, b8⟩ := parse_iter_bounds e.1 it hit
  have hvl : it.val_len = size_sub it.eol it.val_start := by
    obtain ⟨colon, _, rfl⟩ := parse_iter_some e.1 it hit
    rfl
  have hstrlen : strlen s = pre.length + strlen e.1 := by
    rw [hs, strlen_append pre e.1 h0]
  have hdrop : ∀ k, s.drop (pre.length + k) = e.1.drop k := by
    intro k
    rw [hs, ← List.drop_drop, List.drop_left]
  have hdrop0 : s.drop pre.length = e.1 := by
    have := hdrop 0
    simpa using this
  refine ⟨pre, hs, h0, b1, b2, by omega, strlen_le_length s, hvl, b4, ?_, b6, ?_, b7, by omega⟩
  · rw [hdrop0]
    exact b5
  · rw [hdrop]
    exact b8

/-! ## Helper lemmas: the keys of the iterations -/

theorem take_succ_getLast (p : List Nat) (i : Nat) (h : i < p.length) :
    (p.take (i + 1)).getLast? = some (byteAt p i) := by
  have hget : byteAt p i = p[i] := by
    simp [byteAt, List.getD_eq_getElem?_getD, List.getElem?_eq_getElem h]
  rw [List.take_succ, List.getElem?_eq_getElem h, hget]
  simp only [Option.toList, List.getLast?_concat]

theorem line_start_step (s p : List Nat) (it : Iter)
    (hq : ∃ pre, s = pre ++ p ∧ (pre = [] ∨ pre.getLast? = some 10 ∨ byteAt p 0 = 0))
    (hp : byteAt p 0 ≠ 0) (hit : parse_iter p = some it) :
    ∃ pre, s = pre ++ p.drop it.next
      ∧ (pre = [] ∨ pre.getLast? = some 10 ∨ byteAt (p.drop it.next) 0 = 0) := by
  obtain ⟨pre, rfl, _⟩ := hq
  refine ⟨pre ++ p.take it.next, by rw [List.append_assoc, List.take_append_drop], ?_⟩
  rcases parse_iter_progress p it hit hp with ⟨h10, hlt, hn⟩ | ⟨_, _, _, hz⟩
  · right
    left
    have hlen : it.eol < p.length := Nat.lt_of_lt_of_le hlt (strlen_le_length p)
    rw [hn, List.getLast?_append, take_succ_getLast p it.eol hlen, h10]
    rfl
  · exact Or.inr (Or.inr hz)

theorem replay_trace_cons (hv : HV) (c : List Nat × Option Iter)
    (tr : List (List Nat × Option Iter)) :
    replay_trace hv (c :: tr)
      = replay_trace (match c.2 with
          | some it => hv_store hv it.name (to_I32 it.colon) it.value
          | none => hv) tr := rfl

theorem mem_replay_trace (tr : List (List Nat × Option Iter)) (hv : HV)
    (e : List Nat × List Nat) (h : e ∈ replay_trace hv tr) :
    e ∈ hv ∨ ∃ c ∈ tr, ∃ it, c.2 = some it
      ∧ e = (it.name.take (to_I32 it.colon).natAbs, it.value) := by
  induction tr generalizing hv with
  | nil => exact Or.inl h
  | cons c tr ih =>
    rw [replay_trace_cons] at h
    rcases ih _ h with h | ⟨x, hx, it, hit, he⟩
    · cases hc : c.2 with
      | none =>
        rw [hc] at h
        exact Or.inl h
      | some it =>
        rw [hc] at h
        rcases mem_hv_store _ _ _ _ _ h with h | h
        · exact Or.inl h
        · exact Or.inr ⟨c, List.mem_cons_self _ _, it, hc, h⟩
    · exact Or.inr ⟨x, List.mem_cons_of_mem _ hx, it, hit, he⟩

theorem keys_replay_trace_mono (tr : List (List Nat × Option Iter)) (hv : HV) (k : List Nat)
    (h : k ∈ hv.map Prod.fst) : k ∈ (replay_trace hv tr).map Prod.fst := by
  induction tr generalizing hv with
  | nil => exact h
  | cons c tr ih =>
    rw [replay_trace_cons]
    apply ih
    cases c.2 with
    | none => exact h
    | some it => exact mem_keys_hv_insert hv _ _ k (Or.inr h)

theorem keys_replay_trace (tr : List (List Nat × Option Iter)) (hv : HV)
    (c : List Nat × Option Iter) (it : Iter) (hc : c ∈ tr) (hit : c.2 = some it) :
    it.name.take (to_I32 it.colon).natAbs ∈ (replay_trace hv tr).map Prod.fst := by
  induction tr generalizing hv with
  | nil => cases hc
  | cons x tr ih =>
    rw [replay_trace_cons]
    rcases List.mem_cons.1 hc with hx | hx
    · subst hx
      rw [hit]
      exact keys_replay_trace_mono tr _ _ (mem_keys_hv_insert hv _ _ _ (Or.inl rfl))
    · exact ih _ hx

theorem iter_key_small (s pre p : List Nat) (it : Iter) (hs : s = pre ++ p)
    (hlen : s.length < 2 ^ 31) (hit : parse_iter p = some it) :
    it.name.take (to_I32 it.colon).natAbs = (p.take it.colon).map lower_byte := by
  obtain ⟨b1, b2, b3, _, b5, b6, _, _⟩ := parse_iter_bounds p it hit
  have h1 := strlen_le_length p
  have h2 : p.length ≤ s.length := by
    rw [hs, List.length_append]
    omega
  have hsmall : it.colon < 2 ^ 31 := by omega
  have htake : it.name.take it.colon = it.name := by
    rw [← b6, List.take_length]
  rw [to_I32_small _ hsmall, Int.natAbs_ofNat, htake, b5]

/-! ## The header parser: claim C4 -/

/-- C4, as stated, fails: the line ` A : x\n` is stored under the key ` a `,
which has a leading and a trailing space, and nothing is stored under `a`. -/
theorem C4_key_not_trimmed_counterexample :
    parse_headers_to_hv (some (str " A : x\n")) = some [(str " a ", str "x")]
      ∧ is_trimmed (str " a ") = false
      ∧ hv_fetch [(str " a ", str "x")] (str "a") = none := by
  refine ⟨by decide, by decide, by decide⟩

/-- C4, amended: names are lowercased and kept as they are, whitespace
included. For every input `s` shorter than 2^31 bytes the returned map is the
replay of the loop's iterations, and
* every key of the map is, for one of the iterations, the byte-wise lowercased
  text between the cursor of that iteration and the first `':'` after it, all
  of it;
* in each iteration the cursor stands at the start of the input or right after
  a `'\n'`, the text up to the first `':'`, lowercased, is a key of the map, and
  that key is trimmed exactly when the text is;
* in particular the text before the first `':'` of the input, lowercased, is a
  key of the map whatever whitespace it holds. -/
theorem C4_keys_lowercased_verbatim (s : List Nat) (hlen : s.length < 2 ^ 31) :
    ∃ tr m, parse_trace (s.length + 1) s = some tr
      ∧ parse_headers_to_hv (some s) = some m ∧ m = replay_trace newHV tr
      ∧ (∀ e ∈ m, ∃ c ∈ tr, ∃ it, c.2 = some it
          ∧ e.1 = (c.1.take it.colon).map lower_byte)
      ∧ (∀ c ∈ tr, ∀ it, c.2 = some it →
          (∃ pre, s = pre ++ c.1 ∧ (pre = [] ∨ pre.getLast? = some 10))
          ∧ strchr c.1 58 = some it.colon
          ∧ (c.1.take it.colon).map lower_byte ∈ m.map Prod.fst
          ∧ is_trimmed ((c.1.take it.colon).map lower_byte) = is_trimmed (c.1.take it.colon))
      ∧ (∀ name rest, s = name ++ 58 :: rest → 58 ∉ name → 0 ∉ name →
          name.map lower_byte ∈ m.map Prod.fst) := by
  obtain ⟨tr, htr⟩ := parse_trace_total (s.length + 1) s (Nat.lt_succ_self _)
  have hinv := parse_trace_inv
    (fun p => ∃ pre, s = pre ++ p ∧ (pre = [] ∨ pre.getLast? = some 10 ∨ byteAt p 0 = 0))
    (fun p it hq hp hit => line_start_step s p it hq hp hit) _ s tr ⟨[], rfl, Or.inl rfl⟩ htr
  have hkey : ∀ c ∈ tr, ∀ it, c.2 = some it →
      it.name.take (to_I32 it.colon).natAbs = (c.1.take it.colon).map lower_byte := by
    intro c hc it hcit
    obtain ⟨⟨pre, hs, _⟩, _, hpi⟩ := hinv c hc
    exact iter_key_small s pre c.1 it hs hlen (by rw [← hpi, hcit])
  have hiter : ∀ c ∈ tr, ∀ it, c.2 = some it →
      (c.1.take it.colon).map lower_byte ∈ (replay_trace newHV tr).map Prod.fst := by
    intro c hc it hcit
    rw [← hkey c hc it hcit]
    exact keys_replay_trace tr newHV c it hc hcit
  refine ⟨tr, replay_trace newHV tr, htr, by rw [parse_headers_eq_replay, htr]; rfl, rfl,
    ?_, ?_, ?_⟩
  · intro e he
    rcases mem_replay_trace tr newHV e he with he | ⟨c, hc, it, hcit, he⟩
    · cases he
    · exact ⟨c, hc, it, hcit, by rw [he]; exact hkey c hc it hcit⟩
  · intro c hc it hcit
    obtain ⟨⟨pre, hs, hpre⟩, hp, hpi⟩ := hinv c hc
    have hit : parse_iter c.1 = some it := by rw [← hpi, hcit]
    refine ⟨⟨pre, hs, ?_⟩, ?_, hiter c hc it hcit, is_trimmed_map_lower _⟩
    · rcases hpre with h | h | h
      · exact Or.inl h
      · exact Or.inr h
      · exact absurd h hp
    · obtain ⟨colon, hcol, rfl⟩ := parse_iter_some c.1 it hit
      exact hcol
  · intro name rest hs h58 h0
    have hp : byteAt s 0 ≠ 0 := by
      rw [hs]
      exact byteAt_line_start name rest h0
    have hcol : strchr s 58 = some name.length := by
      rw [hs]
      exact strchr_append_hit _ _ _ h58 h0
    have hit : parse_iter s = some (parse_line s name.length) := by
      rw [parse_iter, hcol]
    have hmem : (s, some (parse_line s name.length)) ∈ tr := by
      rw [parse_trace, if_neg hp, hit] at htr
      simp only [] at htr
      cases hrest : parse_trace s.length (s.drop (parse_line s name.length).next) with
      | none => simp [hrest] at htr
      | some tr' =>
        rw [hrest] at htr
        cases htr
        exact List.mem_cons_self _ _
    have := hiter _ hmem (parse_line s name.length) rfl
    have htake : s.take name.length = name := by
      rw [hs]
      simp
    have hc : (parse_line s name.length).colon = name.length := rfl
    rw [hc] at this
    simp only [] at this
    rw [htake] at this
    exact this

/-- C4, amended, at the line ` A : x\n`. -/
theorem C4_keys_lowercased_verbatim_witness :
    ∃ tr m, parse_trace ((str " A : x\n").length + 1) (str " A : x\n") = some tr
      ∧ parse_headers_to_hv (some (str " A : x\n")) = some m
      ∧ (∀ name rest, str " A : x\n" = name ++ 58 :: rest → 58 ∉ name → 0 ∉ name →
          name.map lower_byte ∈ m.map Prod.fst) :=
  have ⟨tr, m, h1, h2, _, _, _, h6⟩ := C4_keys_lowercased_verbatim (str " A : x\n") (by decide)
  ⟨tr, m, h1, h2, h6⟩

end Cannoli
